import Mathlib

/-!
Static size container `Array<Tp_, n_>` (array.cpp).

A shallow embedding of the class template `Array` and proofs about its
operations.  Template parameters become Lean parameters: the element types
`Tp_`, `Vp_` are types `Tp`, `Vp`, and an element-level C++ operator (`+`,
`==`, assignment conversion, ...) is the function passed for it.  Reading or
writing outside `[0, n_)` is undefined behaviour in the source; the embedding
answers `none` there.  The unsigned index type `Size` of the source is `Nat`.
-/

namespace ArrayCpp

/-- The class `Array<Tp_, n_>`: its only member is `Tp_ _data[n_]`, exactly
`n_` slots of type `Tp_`. -/
structure Array (Tp : Type) (n_ : Nat) where
  _data : Fin n_ → Tp

variable {Tp Vp Rp σ : Type} {n_ : Nat}

/-- Subscript `operator[] (const Size & index)`, returning `_data[index]`.
An index outside `[0, n_)` is undefined behaviour: `none`. -/
def Array.operator_index (self : Array Tp n_) (index : Nat) : Option Tp :=
  if h : index < n_ then some (self._data ⟨index, h⟩) else none

/-- Assignment through the reference `_data[index]`: slot `index` receives
`value`, every other slot keeps its content. -/
def Array.store (self : Array Tp n_) (index : Nat) (value : Tp) : Array Tp n_ :=
  ⟨fun j => if j.val = index then value else self._data j⟩

/-- The loop of `operator()`: `for (Size i = 0; i != n_; ++i) function(_data[i], i);`.
The callable receives the element by mutable reference and the index; it may
also read and write whatever it captured, which is the state `env`.  It is
therefore a function from captured state, element and index to the new
captured state and the new element (`none`: undefined behaviour inside the
call).  `fuel` bounds the number of loop tests. -/
def Array.operator_call_loop (function : σ → Tp → Nat → Option (σ × Tp)) :
    Nat → Nat → σ → Array Tp n_ → Option (σ × Array Tp n_)
  | 0, _, _, _ => none
  | fuel + 1, i, env, self =>
    if i = n_ then some (env, self)
    else
      match self.operator_index i with
      | none => none
      | some elem =>
        match function env elem i with
        | none => none
        | some (env', elem') =>
          Array.operator_call_loop function fuel (i + 1) env' (self.store i elem')

/-- Function operator `void operator() (auto function)`: the loop started at
`i = 0`; `n_` iterations and the final test need `n_ + 1` loop tests. -/
def Array.operator_call (self : Array Tp n_)
    (function : σ → Tp → Nat → Option (σ × Tp)) (env : σ) : Option (σ × Array Tp n_) :=
  Array.operator_call_loop function (n_ + 1) 0 env self

/-- Addition `operator + (const Array<Vp_, n_> & array)`.  `add` is the
element-level `+` between `Tp_` and `const Vp_`, whose result type
`meta::AddableTest<Tp_, const Vp_>` is `Rp`.  `result` is the local
`Array<Rp, n_> result;` with its indeterminate initial contents.  The lambda
captures `this` and `array` by reference and runs
`elem = this->_data[index] + array[index]`.  Returned: `result`, and the
final states of `*this` and `array`. -/
def Array.operator_add (add : Tp → Vp → Rp) (self : Array Tp n_) (array : Array Vp n_)
    (result : Array Rp n_) : Option (Array Rp n_ × Array Tp n_ × Array Vp n_) :=
  match result.operator_call
      (fun (env : Array Tp n_ × Array Vp n_) (_ : Rp) (index : Nat) =>
        match env.1.operator_index index, env.2.operator_index index with
        | some x, some y => some (env, add x y)
        | _, _ => none)
      (self, array) with
  | some (env, result) => some (result, env.1, env.2)
  | none => none

/-- Subtraction `operator - (const Array<Vp_, n_> & array)`, with the lambda
`elem = this->_data[index] - array[index]`; `sub` is the element-level `-`. -/
def Array.operator_sub (sub : Tp → Vp → Rp) (self : Array Tp n_) (array : Array Vp n_)
    (result : Array Rp n_) : Option (Array Rp n_ × Array Tp n_ × Array Vp n_) :=
  match result.operator_call
      (fun (env : Array Tp n_ × Array Vp n_) (_ : Rp) (index : Nat) =>
        match env.1.operator_index index, env.2.operator_index index with
        | some x, some y => some (env, sub x y)
        | _, _ => none)
      (self, array) with
  | some (env, result) => some (result, env.1, env.2)
  | none => none

/-- Product `operator * (const Array<Vp_, n_> & array)`, with the lambda
`elem = this->_data[index] * array[index]`; `mul` is the element-level `*`. -/
def Array.operator_mul (mul : Tp → Vp → Rp) (self : Array Tp n_) (array : Array Vp n_)
    (result : Array Rp n_) : Option (Array Rp n_ × Array Tp n_ × Array Vp n_) :=
  match result.operator_call
      (fun (env : Array Tp n_ × Array Vp n_) (_ : Rp) (index : Nat) =>
        match env.1.operator_index index, env.2.operator_index index with
        | some x, some y => some (env, mul x y)
        | _, _ => none)
      (self, array) with
  | some (env, result) => some (result, env.1, env.2)
  | none => none

/-- Two's-complement reduction of an integer to the signed 32-bit range. -/
def wrap32 (x : Int) : Int := (x + 2147483648) % 4294967296 - 2147483648

/-- The element type `int`: the integers of the signed 32-bit range. -/
structure int where
  val : Int
  lo : -2147483648 ≤ val
  hi : val < 2147483648
deriving DecidableEq

/-- The `int` holding the 32-bit reduction of an integer. -/
def int.ofInt (x : Int) : int :=
  ⟨wrap32 x, by unfold wrap32; omega, by unfold wrap32; omega⟩

/-- Addition `int + int`.  The language leaves signed overflow undefined; the
embedding takes the two's-complement result the machine instruction gives. -/
def int.add (x y : int) : int := int.ofInt (x.val + y.val)

/-- Subtraction `int - int`, reduced to 32 bits in the same way. -/
def int.sub (x y : int) : int := int.ofInt (x.val - y.val)

/-- Product `int * int`, reduced to 32 bits in the same way. -/
def int.mul (x y : int) : int := int.ofInt (x.val * y.val)

/-- Negation `-int`, reduced to 32 bits in the same way: the minimum value is
its own negation. -/
def int.neg (x : int) : int := int.ofInt (-x.val)

/-- Values constructor `Array(Tps_ && ... values)`, enabled when exactly `n_`
values are supplied: `_data{ std::move(values) ... }` puts the `i`-th value
into slot `i`. -/
def Array.ofValues (values : List Tp) (h : values.length = n_) : Array Tp n_ :=
  ⟨fun i => values.get ⟨i.val, by rw [h]; exact i.isLt⟩⟩

/-- The contents of an array, slot 0 first. -/
def Array.toList (self : Array Tp n_) : List Tp := List.ofFn self._data

/-- An array of `int` from integer literals. -/
def ints (values : List Int) : Array int values.length :=
  Array.ofValues (values.map int.ofInt) (by simp)

/-- Scalar addition `operator + (const Vp_ & value)`, with the lambda
`elem = this->_data[index] + value`.  Returned: `result`, and the final states
of `*this` and `value`. -/
def Array.operator_add_scalar (add : Tp → Vp → Rp) (self : Array Tp n_) (value : Vp)
    (result : Array Rp n_) : Option (Array Rp n_ × Array Tp n_ × Vp) :=
  match result.operator_call
      (fun (env : Array Tp n_ × Vp) (_ : Rp) (index : Nat) =>
        match env.1.operator_index index with
        | some x => some (env, add x env.2)
        | none => none)
      (self, value) with
  | some (env, result) => some (result, env.1, env.2)
  | none => none

/-- Scalar subtraction `operator - (const Vp_ & value)`, with the lambda
`elem = this->_data[index] - value`. -/
def Array.operator_sub_scalar (sub : Tp → Vp → Rp) (self : Array Tp n_) (value : Vp)
    (result : Array Rp n_) : Option (Array Rp n_ × Array Tp n_ × Vp) :=
  match result.operator_call
      (fun (env : Array Tp n_ × Vp) (_ : Rp) (index : Nat) =>
        match env.1.operator_index index with
        | some x => some (env, sub x env.2)
        | none => none)
      (self, value) with
  | some (env, result) => some (result, env.1, env.2)
  | none => none

/-- Scalar product `operator * (const Vp_ & value)`, with the lambda
`elem = this->_data[index] * value`. -/
def Array.operator_mul_scalar (mul : Tp → Vp → Rp) (self : Array Tp n_) (value : Vp)
    (result : Array Rp n_) : Option (Array Rp n_ × Array Tp n_ × Vp) :=
  match result.operator_call
      (fun (env : Array Tp n_ × Vp) (_ : Rp) (index : Nat) =>
        match env.1.operator_index index with
        | some x => some (env, mul x env.2)
        | none => none)
      (self, value) with
  | some (env, result) => some (result, env.1, env.2)
  | none => none

/-- Negation `operator - (void)`, with the lambda `elem = -(this->_data[index])`;
`neg` is the element-level unary `-`, of result type
`meta::NegatableTest<Tp_>`.  Returned: `result` and the final state of
`*this`. -/
def Array.operator_neg (neg : Tp → Rp) (self : Array Tp n_) (result : Array Rp n_) :
    Option (Array Rp n_ × Array Tp n_) :=
  match result.operator_call
      (fun (env : Array Tp n_) (_ : Rp) (index : Nat) =>
        match env.operator_index index with
        | some x => some (env, neg x)
        | none => none)
      self with
  | some (env, result) => some (result, env)
  | none => none

/-- The algorithm `std::equal(first1, last1, first2)`:
`for (; first1 != last1; ++first1, ++first2) if (!(*first1 == *first2)) return false;`
then `return true`.  An iterator is a position in the array it points into.
`eq` is the element-level `==`. -/
def std_equal (eq : Vp → Tp → Bool) (range1 : Array Vp n_) (range2 : Array Tp n_) :
    Nat → Nat → Nat → Nat → Option Bool
  | 0, _, _, _ => none
  | fuel + 1, first1, last1, first2 =>
    if first1 = last1 then some true
    else
      match range1.operator_index first1, range2.operator_index first2 with
      | some x, some y =>
        if eq x y then std_equal eq range1 range2 fuel (first1 + 1) last1 (first2 + 1)
        else some false
      | _, _ => none

/-- Equality `operator == (const Array<Vp_, n_> & array)`:
`std::equal(array.begin(), array.end(), Array::begin())`. -/
def Array.operator_eq (eq : Vp → Tp → Bool) (self : Array Tp n_) (array : Array Vp n_) :
    Option Bool :=
  std_equal eq array self (n_ + 1) 0 n_ 0

/-- The algorithm `std::fill(first, last, value)`:
`for (; first != last; ++first) *first = value;`.  `assign` is the conversion
the assignment of a `const Vp_ &` to a `Tp_` performs. -/
def std_fill (assign : Vp → Tp) (value : Vp) :
    Nat → Nat → Nat → Array Tp n_ → Option (Array Tp n_)
  | 0, _, _, _ => none
  | fuel + 1, first, last, range =>
    if first = last then some range
    else if first < n_ then
      std_fill assign value fuel (first + 1) last (range.store first (assign value))
    else none

/-- Array fill `fill(const Vp_ & value)`:
`std::fill(Array::begin(), Array::end(), value)`. -/
def Array.fill (assign : Vp → Tp) (self : Array Tp n_) (value : Vp) : Option (Array Tp n_) :=
  std_fill assign value (n_ + 1) 0 n_ self

/-- The algorithm `std::copy(first, last, d_first)`:
`for (; first != last; ++first, ++d_first) *d_first = *first;`. -/
def std_copy (assign : Vp → Tp) (source : Array Vp n_) :
    Nat → Nat → Nat → Nat → Array Tp n_ → Option (Array Tp n_)
  | 0, _, _, _, _ => none
  | fuel + 1, first, last, d_first, dest =>
    if first = last then some dest
    else
      match source.operator_index first with
      | none => none
      | some x =>
        if d_first < n_ then
          std_copy assign source fuel (first + 1) last (d_first + 1)
            (dest.store d_first (assign x))
        else none

/-- One byte of storage. -/
abbrev Byte := Fin 256

/-- What the compiler knows of an element type and `EnableCMem`, `DataSize`
and `memcpy` depend on: `sizeof`, `std::is_pod`, and the object representation
(the `sizeof` bytes a value is stored as, and the value read back from them). -/
structure TypeInfo (T : Type) where
  sizeof : Nat
  is_pod : Bool
  toBytes : T → List Byte
  ofBytes : List Byte → T
  length_toBytes : ∀ x, (toBytes x).length = sizeof
  ofBytes_toBytes : ∀ x, ofBytes (toBytes x) = x

/-- The alias `EnableCMem<Vp_>`:
`sizeof(Vp_) == sizeof(Tp_) && std::is_pod<Tp_>::value && std::is_pod<Vp_>::value`. -/
def EnableCMem (tp : TypeInfo Tp) (vp : TypeInfo Vp) : Bool :=
  vp.sizeof == tp.sizeof && tp.is_pod && vp.is_pod

/-- The constant `DataSize`: `sizeof(Tp_) * n_`. -/
def DataSize (tp : TypeInfo Tp) (n_ : Nat) : Nat := tp.sizeof * n_

/-- The bytes of the member `_data`: the object representations of the slots,
slot 0 first. -/
def Array.storage (tp : TypeInfo Tp) (self : Array Tp n_) : List Byte :=
  (self.toList.map tp.toBytes).flatten

/-- The array whose member `_data` occupies the given bytes: slot `i` is read
from the `sizeof(Tp_)` bytes at offset `i * sizeof(Tp_)`. -/
def Array.ofStorage (tp : TypeInfo Tp) (bytes : List Byte) : Array Tp n_ :=
  ⟨fun i => tp.ofBytes ((bytes.drop (i.val * tp.sizeof)).take tp.sizeof)⟩

/-- The C function `memcpy(dest, src, count)` on two distinct objects: the
first `count` bytes of `dest` become those of `src`.  Reading or writing past
the end of either object is undefined behaviour: `none`. -/
def memcpy (dest src : List Byte) (count : Nat) : Option (List Byte) :=
  if count ≤ dest.length ∧ count ≤ src.length then some (src.take count ++ dest.drop count)
  else none

/-- The C function `memmove(dest, src, count)`: as `memcpy`, and also defined
when the objects overlap; on two distinct objects the result is the same. -/
def memmove (dest src : List Byte) (count : Nat) : Option (List Byte) :=
  if count ≤ dest.length ∧ count ≤ src.length then some (src.take count ++ dest.drop count)
  else none

/-- The bytes of `_data` after the body of the `copy` overload enabled by
`EnableCMem<const Vp_>`: `memcpy(Array::_data, array.begin(), DataSize::value)`. -/
def Array.copy_cmem_storage (tp : TypeInfo Tp) (vp : TypeInfo Vp) (self : Array Tp n_)
    (array : Array Vp n_) : Option (List Byte) :=
  memcpy (self.storage tp) (array.storage vp) (DataSize tp n_)

/-- The `copy` overload enabled by `EnableCMem<const Vp_>`: `*this` after the
`memcpy`. -/
def Array.copy_cmem (tp : TypeInfo Tp) (vp : TypeInfo Vp) (self : Array Tp n_)
    (array : Array Vp n_) : Option (Array Tp n_) :=
  (self.copy_cmem_storage tp vp array).map (Array.ofStorage tp)

/-- The `copy` overload enabled by `!EnableCMem<const Vp_>`:
`std::copy(array.begin(), array.end(), Array::begin())`. -/
def Array.copy_iterate (assign : Vp → Tp) (self : Array Tp n_) (array : Array Vp n_) :
    Option (Array Tp n_) :=
  std_copy assign array (n_ + 1) 0 n_ 0 self

/-- Array copy `copy(const Array<Vp_, n_> & array)`: overload resolution
selects the body by `EnableCMem<const Vp_>::value`.  Returned: the final states
of `*this` and of `array`, which is a reference to `const`. -/
def Array.copy (tp : TypeInfo Tp) (vp : TypeInfo Vp) (assign : Vp → Tp) (self : Array Tp n_)
    (array : Array Vp n_) : Option (Array Tp n_ × Array Vp n_) :=
  if EnableCMem tp vp then (self.copy_cmem tp vp array).map (fun self => (self, array))
  else (self.copy_iterate assign array).map (fun self => (self, array))

/-- The algorithm `std::move(first, last, d_first)`:
`for (; first != last; ++first, ++d_first) *d_first = std::move(*first);`.
`massign` is the conversion the move assignment performs and `residue` the
state it leaves a moved-from source element in.  Returned: the source and the
destination. -/
def std_move (massign : Vp → Tp) (residue : Vp → Vp) :
    Nat → Nat → Nat → Nat → Array Vp n_ → Array Tp n_ → Option (Array Vp n_ × Array Tp n_)
  | 0, _, _, _, _, _ => none
  | fuel + 1, first, last, d_first, source, dest =>
    if first = last then some (source, dest)
    else
      match source.operator_index first with
      | none => none
      | some x =>
        if d_first < n_ then
          std_move massign residue fuel (first + 1) last (d_first + 1)
            (source.store first (residue x)) (dest.store d_first (massign x))
        else none

/-- The bytes of `_data` after the body of the `move` overload enabled by
`EnableCMem<Vp_>`: `memmove(Array::_data, array.begin(), DataSize::value)`. -/
def Array.move_cmem_storage (tp : TypeInfo Tp) (vp : TypeInfo Vp) (self : Array Tp n_)
    (array : Array Vp n_) : Option (List Byte) :=
  memmove (self.storage tp) (array.storage vp) (DataSize tp n_)

/-- The `move` overload enabled by `EnableCMem<Vp_>`: `*this` after the
`memmove`. -/
def Array.move_cmem (tp : TypeInfo Tp) (vp : TypeInfo Vp) (self : Array Tp n_)
    (array : Array Vp n_) : Option (Array Tp n_) :=
  (self.move_cmem_storage tp vp array).map (Array.ofStorage tp)

/-- The `move` overload enabled by `!EnableCMem<Vp_>`:
`std::move(array.begin(), array.end(), Array::begin())`.  Returned: `*this`
and the moved-from `array`. -/
def Array.move_iterate (massign : Vp → Tp) (residue : Vp → Vp) (self : Array Tp n_)
    (array : Array Vp n_) : Option (Array Tp n_ × Array Vp n_) :=
  (std_move massign residue (n_ + 1) 0 n_ 0 array self).map (fun r => (r.2, r.1))

/-- Array move `move(Array<Vp_, n_> && array)`: overload resolution selects
the body by `EnableCMem<Vp_>::value`.  Returned: the final states of `*this`
and of `array`. -/
def Array.move (tp : TypeInfo Tp) (vp : TypeInfo Vp) (massign : Vp → Tp) (residue : Vp → Vp)
    (self : Array Tp n_) (array : Array Vp n_) : Option (Array Tp n_ × Array Vp n_) :=
  if EnableCMem tp vp then (self.move_cmem tp vp array).map (fun self => (self, array))
  else self.move_iterate massign residue array

/-- The defaulted move constructor `Array(Array &&) = default`: each slot of
the new object is move-constructed from the same slot of `other`.  `residue`
is the state a moved-from element is left in (the identity for a scalar
type).  Returned: the new object and the moved-from `other`. -/
def Array.move_construct (residue : Tp → Tp) (other : Array Tp n_) :
    Array Tp n_ × Array Tp n_ :=
  (⟨fun i => other._data i⟩, ⟨fun i => residue (other._data i)⟩)

/-- The defaulted move assignment `Array & operator = (Array &&) = default`:
each slot of `*this` is move-assigned from the same slot of `other`.
Returned: `*this` and the moved-from `other`. -/
def Array.move_assign (residue : Tp → Tp) (_self other : Array Tp n_) :
    Array Tp n_ × Array Tp n_ :=
  (⟨fun i => other._data i⟩, ⟨fun i => residue (other._data i)⟩)

/-- Array swap `swap(Array<Vp_, n_> & array)`, instantiated at `Vp_ = Tp_` and
called on two distinct objects:
`auto array_temp = std::move(array); array = std::move(*this); *this = std::move(array_temp);`.
Returned: the final states of `*this` and of `array`. -/
def Array.swap (residue : Tp → Tp) (self array : Array Tp n_) : Array Tp n_ × Array Tp n_ :=
  let step1 := Array.move_construct residue array
  let array_temp := step1.1
  let array := step1.2
  let step2 := Array.move_assign residue array self
  let array := step2.1
  let self := step2.2
  let step3 := Array.move_assign residue self array_temp
  let self := step3.1
  (self, array)

/-- One call of the callable as the specification words it: at index `i` it
is given the `i`-th element and `i`, and what it leaves in the element
replaces the `i`-th element. -/
def applyAt (f : σ → Tp → Nat → σ × Tp) (st : σ × Array Tp n_) (i : Nat) :
    σ × Array Tp n_ :=
  match st.2.operator_index i with
  | some elem => ((f st.1 elem i).1, st.2.store i (f st.1 elem i).2)
  | none => st

/-- The specification of function application: the calls for the indices
`0, 1, ..., n_ - 1`, folded in ascending order. -/
def foldIndices (f : σ → Tp → Nat → σ × Tp) (env : σ) (a : Array Tp n_) : σ × Array Tp n_ :=
  (List.range n_).foldl (applyAt f) (env, a)

/-- A callable that computes the new element with `g` and appends the
arguments of every call it receives to a log. -/
def logged (g : Tp → Nat → Tp) (log : List (Tp × Nat)) (elem : Tp) (index : Nat) :
    Option (List (Tp × Nat) × Tp) :=
  some (log ++ [(elem, index)], g elem index)

/-- The element type `uint8_t`: the integers of the unsigned 8-bit range. -/
structure uint8_t where
  val : Nat
  hi : val < 256
deriving DecidableEq

/-- The element type `uint32_t`: the integers of the unsigned 32-bit range. -/
structure uint32_t where
  val : Nat
  hi : val < 4294967296
deriving DecidableEq

/-- Conversion of a `uint8_t` to `bool`, as the assignment `bool = uint8_t`
performs it: zero becomes `false`, every other value `true`. -/
def uint8_t.toBool (x : uint8_t) : Bool := x.val != 0

/-- Conversion of a `uint32_t` to `int`, as the assignment `int = uint32_t`
performs it: the value is reduced to the signed 32-bit range. -/
def uint32_t.toInt (x : uint32_t) : int := int.ofInt x.val

/-- The four bytes of a number below `2^32`, least significant first. -/
def leBytes4 (u : Nat) : List Byte :=
  [⟨u % 256, Nat.mod_lt _ (by decide)⟩, ⟨u / 256 % 256, Nat.mod_lt _ (by decide)⟩,
   ⟨u / 65536 % 256, Nat.mod_lt _ (by decide)⟩, ⟨u / 16777216 % 256, Nat.mod_lt _ (by decide)⟩]

/-- The number four bytes stand for, least significant first. -/
def ofLeBytes4 : List Byte → Nat
  | [b0, b1, b2, b3] => b0.val + 256 * b1.val + 65536 * b2.val + 16777216 * b3.val
  | _ => 0

/-- The type `bool`: one byte, `false` stored as 0 and `true` as 1.  A byte
that is neither is not the representation of a `bool`; read back it counts as
`true` here. -/
def bool_info : TypeInfo Bool where
  sizeof := 1
  is_pod := true
  toBytes b := [if b then 1 else 0]
  ofBytes bs := match bs with
    | [b] => b.val != 0
    | _ => false
  length_toBytes _ := rfl
  ofBytes_toBytes b := by cases b <;> rfl

/-- The type `uint8_t`: one byte holding the value. -/
def uint8_info : TypeInfo uint8_t where
  sizeof := 1
  is_pod := true
  toBytes x := [⟨x.val, x.hi⟩]
  ofBytes bs := match bs with
    | [b] => ⟨b.val, b.isLt⟩
    | _ => ⟨0, by decide⟩
  length_toBytes _ := rfl
  ofBytes_toBytes _ := rfl

/-- The type `uint32_t`: four bytes holding the value. -/
def uint32_info : TypeInfo uint32_t where
  sizeof := 4
  is_pod := true
  toBytes x := leBytes4 x.val
  ofBytes bs := ⟨ofLeBytes4 bs % 4294967296, Nat.mod_lt _ (by decide)⟩
  length_toBytes _ := rfl
  ofBytes_toBytes x := by
    have h := x.hi
    cases x
    simp only [leBytes4, ofLeBytes4, uint32_t.mk.injEq]
    simp only [] at h
    omega

/-- The type `int`: four bytes holding the value in two's complement. -/
def int_info : TypeInfo int where
  sizeof := 4
  is_pod := true
  toBytes x := leBytes4 (x.val % 4294967296).toNat
  ofBytes bs := int.ofInt (ofLeBytes4 bs)
  length_toBytes _ := rfl
  ofBytes_toBytes x := by
    have h1 := x.lo
    have h2 := x.hi
    cases x
    simp only [leBytes4, ofLeBytes4, int.ofInt, wrap32, int.mk.injEq]
    simp only [] at h1 h2
    omega

/-- First element `front(void)`: `*Array::_data`. -/
def Array.front (self : Array Tp n_) : Option Tp := self.operator_index 0

/-- Last element `back(void)`: `*(Array::_data + n_ - 1)`.  With `n_ = 0` the
pointer lies before the storage and nothing is read. -/
def Array.back (self : Array Tp n_) : Option Tp := self.operator_index (n_ - 1)

/-- Array size `size(void)`, a static member that returns `n_`. -/
def Array.size (_self : Array Tp n_) : Nat := n_

/-- Inequality `operator != (const Array<Vp_, n_> & array)`:
`return !(*this == array);`. -/
def Array.operator_ne (eq : Vp → Tp → Bool) (self : Array Tp n_) (array : Array Vp n_) :
    Option Bool :=
  (self.operator_eq eq array).map not

/-- The algorithm `std::equal(first1, last1, first2)` when the third argument
is a value of an arbitrary type `Vp_`, as in the scalar `operator ==`.  The
algorithm uses it as an iterator: `deref` is unary `*` on a `Vp_` and `next`
is `++`.  On a `Vp_` that is no iterator (every arithmetic type) unary `*`
does not exist and the call has no instantiation: there `deref` answers
`none`. -/
def std_equal_iterator {Ep : Type} (eq : Tp → Ep → Bool) (range1 : Array Tp n_)
    (deref : Vp → Option Ep) (next : Vp → Vp) : Nat → Nat → Nat → Vp → Option Bool
  | 0, _, _, _ => none
  | fuel + 1, first1, last1, first2 =>
    if first1 = last1 then some true
    else
      match range1.operator_index first1, deref first2 with
      | some x, some y =>
        if eq x y then std_equal_iterator eq range1 deref next fuel (first1 + 1) last1 (next first2)
        else some false
      | _, _ => none

/-- Scalar equality `operator == (const Vp_ & value)`:
`std::equal(Array::begin(), Array::end(), value)`. -/
def Array.operator_eq_scalar {Ep : Type} (eq : Tp → Ep → Bool) (deref : Vp → Option Ep)
    (next : Vp → Vp) (self : Array Tp n_) (value : Vp) : Option Bool :=
  std_equal_iterator eq self deref next (n_ + 1) 0 n_ value

/-- Scalar inequality `operator != (const Vp_ & value)`:
`return !(*this == value);`. -/
def Array.operator_ne_scalar {Ep : Type} (eq : Tp → Ep → Bool) (deref : Vp → Option Ep)
    (next : Vp → Vp) (self : Array Tp n_) (value : Vp) : Option Bool :=
  (self.operator_eq_scalar eq deref next value).map not

/-- Division `int / int`: the quotient truncated toward zero.  A zero divisor
and the quotient of the minimum value by -1 are undefined: `none`. -/
def int.div (x y : int) : Option int :=
  if y.val = 0 then none
  else if x.val = -2147483648 ∧ y.val = -1 then none
  else some (int.ofInt (Int.tdiv x.val y.val))

/-- Quotient `operator / (const Array<Vp_, n_> & array)`, with the lambda
`elem = this->_data[index] / array[index]`; `div` is the element-level `/`,
which may be undefined. -/
def Array.operator_div (div : Tp → Vp → Option Rp) (self : Array Tp n_) (array : Array Vp n_)
    (result : Array Rp n_) : Option (Array Rp n_ × Array Tp n_ × Array Vp n_) :=
  match result.operator_call
      (fun (env : Array Tp n_ × Array Vp n_) (_ : Rp) (index : Nat) =>
        match env.1.operator_index index, env.2.operator_index index with
        | some x, some y =>
          match div x y with
          | some q => some (env, q)
          | none => none
        | _, _ => none)
      (self, array) with
  | some (env, result) => some (result, env.1, env.2)
  | none => none

/-- Scalar quotient `operator / (const Vp_ & value)`, with the lambda
`elem = this->_data[index] / value`. -/
def Array.operator_div_scalar (div : Tp → Vp → Option Rp) (self : Array Tp n_) (value : Vp)
    (result : Array Rp n_) : Option (Array Rp n_ × Array Tp n_ × Vp) :=
  match result.operator_call
      (fun (env : Array Tp n_ × Vp) (_ : Rp) (index : Nat) =>
        match env.1.operator_index index with
        | some x =>
          match div x env.2 with
          | some q => some (env, q)
          | none => none
        | none => none)
      (self, value) with
  | some (env, result) => some (result, env.1, env.2)
  | none => none

/-- The element type `int64_t`: the integers of the signed 64-bit range. -/
structure int64_t where
  val : Int
  lo : -9223372036854775808 ≤ val
  hi : val < 9223372036854775808
deriving DecidableEq

/-- Conversion of an `int64_t` to `int`, as the assignment `int = int64_t`
performs it: the value is reduced to the signed 32-bit range. -/
def int64_t.toInt (x : int64_t) : int := int.ofInt x.val

/-- Conversion of an `int` to `int64_t`, which keeps the value. -/
def int.toInt64 (x : int) : int64_t :=
  ⟨x.val, by have := x.lo; omega, by have := x.hi; omega⟩

/-- Comparison `int64_t == int`: the `int` is converted to `int64_t` and the
two values are compared. -/
def int64_t.eq_int (x : int64_t) (y : int) : Bool := decide (x = y.toInt64)

/-- The eight bytes of a number below `2^64`, least significant first. -/
def leBytes8 (u : Nat) : List Byte :=
  leBytes4 (u % 4294967296) ++ leBytes4 (u / 4294967296)

/-- The number eight bytes stand for, least significant first. -/
def ofLeBytes8 (bs : List Byte) : Nat :=
  ofLeBytes4 (bs.take 4) + 4294967296 * ofLeBytes4 (bs.drop 4)

/-- Two's-complement reduction of an integer to the signed 64-bit range. -/
def wrap64 (x : Int) : Int :=
  (x + 9223372036854775808) % 18446744073709551616 - 9223372036854775808

/-- The type `int64_t`: eight bytes holding the value in two's complement. -/
def int64_info : TypeInfo int64_t where
  sizeof := 8
  is_pod := true
  toBytes x := leBytes8 (x.val % 18446744073709551616).toNat
  ofBytes bs := ⟨wrap64 (ofLeBytes8 bs), by unfold wrap64; omega, by unfold wrap64; omega⟩
  length_toBytes _ := rfl
  ofBytes_toBytes x := by
    have h1 := x.lo
    have h2 := x.hi
    cases x
    simp only [leBytes8, leBytes4, ofLeBytes8, ofLeBytes4, wrap64, int64_t.mk.injEq,
      List.cons_append, List.nil_append, List.take_succ_cons, List.take_zero,
      List.drop_succ_cons, List.drop_zero]
    simp only [] at h1 h2
    omega

/-! The matrix of main.cpp.  An entry is a `u64`, a number below `2^64`; `sz`
is `Nat`. -/

/-- The struct `Matrix`: the members `vi data; sz cols; sz rows;`. -/
structure Matrix where
  data : List Nat
  cols : Nat
  rows : Nat
deriving DecidableEq

/-- The constructor `Matrix(sz r, sz c)`: `data(vi(r * c, 0)), cols(c), rows(r)`. -/
def Matrix.new (r c : Nat) : Matrix :=
  ⟨List.replicate (r * c) 0, c, r⟩

/-- The read access `operator()(sz r, sz c) const`: `data[r * cols + c]`.  An
index outside the vector is undefined behaviour: `none`. -/
def Matrix.operator_at (self : Matrix) (r c : Nat) : Option Nat :=
  self.data[r * self.cols + c]?

/-- Assignment through the reference `operator()(sz r, sz c)` returns:
`data[r * cols + c]` receives `value`. -/
def Matrix.store_at (self : Matrix) (r c : Nat) (value : Nat) : Option Matrix :=
  if r * self.cols + c < self.data.length then
    some ⟨self.data.set (r * self.cols + c) value, self.cols, self.rows⟩
  else none

/-- The loop of `get_row`: `for (auto& e : ret) { e = data[rows * r + i]; i++; }`,
over the elements of `ret` left to visit. -/
def Matrix.get_row_loop (self : Matrix) (r : Nat) : List Nat → Nat → Option (List Nat)
  | [], _ => some []
  | _ :: ret, i =>
    match self.data[self.rows * r + i]? with
    | none => none
    | some e =>
      match Matrix.get_row_loop self r ret (i + 1) with
      | none => none
      | some ret => some (e :: ret)

/-- The member `get_row(sz r) const`: `auto ret = vi(cols, 0); sz i = 0;`, the
loop, `return ret;`. -/
def Matrix.get_row (self : Matrix) (r : Nat) : Option (List Nat) :=
  self.get_row_loop r (List.replicate self.cols 0) 0

/-- The loop of `get_col`: `for (auto& e : ret) { e = data[cols * i + c]; i++; }`. -/
def Matrix.get_col_loop (self : Matrix) (c : Nat) : List Nat → Nat → Option (List Nat)
  | [], _ => some []
  | _ :: ret, i =>
    match self.data[self.cols * i + c]? with
    | none => none
    | some e =>
      match Matrix.get_col_loop self c ret (i + 1) with
      | none => none
      | some ret => some (e :: ret)

/-- The member `get_col(sz c) const`: `auto ret = vi(rows, 0); sz i = 0;`, the
loop, `return ret;`. -/
def Matrix.get_col (self : Matrix) (c : Nat) : Option (List Nat) :=
  self.get_col_loop c (List.replicate self.rows 0) 0

/-- The algorithm `std::inner_product(first1, last1, first2, init)` on `u64`
ranges, as `operator*` calls it: the last argument is the literal `0`, so the
accumulator `init` has type `int`.  Each step runs
`init = init + *first1 * *first2`: the product is taken in `u64`, `init` is
converted to `u64` for the sum, and the sum is converted back to `int`. -/
def inner_product : List Nat → List Nat → int → Option int
  | [], _, init => some init
  | _ :: _, [], _ => none
  | x :: range1, y :: range2, init =>
    inner_product range1 range2
      (int.ofInt ((init.val % 18446744073709551616
        + ((x * y : Nat) : Int) % 18446744073709551616) % 18446744073709551616))

/-- The inner loop of `operator*`, for the row `i`:
`for (sz j = 0; j < rhs.rows; j++) { auto sel_col = rhs.get_col(j);
u64 sum = inner_product(sel_row.begin(), sel_row.end(), sel_col.begin(), 0); out(i, j) = sum; }`.
The `int` the algorithm returns is converted to `u64` for `sum`. -/
def Matrix.operator_mul_cols (sel_row : List Nat) (rhs : Matrix) (i : Nat) :
    Nat → Nat → Matrix → Option Matrix
  | 0, _, _ => none
  | fuel + 1, j, out =>
    if j < rhs.rows then
      match rhs.get_col j with
      | none => none
      | some sel_col =>
        match inner_product sel_row sel_col (int.ofInt 0) with
        | none => none
        | some s =>
          match out.store_at i j (s.val % 18446744073709551616).toNat with
          | none => none
          | some out => Matrix.operator_mul_cols sel_row rhs i fuel (j + 1) out
    else some out

/-- The outer loop of `operator*`:
`for (sz i = 0; i < cols; i++) { auto sel_row = get_row(i); ... }`. -/
def Matrix.operator_mul_rows (self rhs : Matrix) : Nat → Nat → Matrix → Option Matrix
  | 0, _, _ => none
  | fuel + 1, i, out =>
    if i < self.cols then
      match self.get_row i with
      | none => none
      | some sel_row =>
        match Matrix.operator_mul_cols sel_row rhs i (rhs.rows + 1) 0 out with
        | none => none
        | some out => Matrix.operator_mul_rows self rhs fuel (i + 1) out
    else some out

/-- The member `operator*(const Matrix& rhs) const`:
`auto out = Matrix(rhs.rows, cols);`, the two loops, `return out;`. -/
def Matrix.operator_mul (self rhs : Matrix) : Option Matrix :=
  Matrix.operator_mul_rows self rhs (self.cols + 1) 0 (Matrix.new rhs.rows self.cols)

/-- The entry `(i, j)` of the product as the specification states it: the sum
over `k < n` of `a(i,k) * b(k,j)`, reduced modulo `2^64`. -/
def productEntry (n : Nat) (a b : Matrix) (i j : Nat) : Nat :=
  ((List.range n).map (fun k => a.data.getD (i * n + k) 0 * b.data.getD (k * n + j) 0)).sum
    % 18446744073709551616

/-- An `n`-by-`n` matrix: `cols` and `rows` are `n` and `data` holds `n * n`
entries, as the constructor `Matrix(n, n)` makes it. -/
def Matrix.isSquare (m : Matrix) (n : Nat) : Prop :=
  m.cols = n ∧ m.rows = n ∧ m.data.length = n * n

/-- How far a run of the loop of `main` has come: it left the loop, it is
still in the loop after the loop tests it was given, or it met undefined
behaviour. -/
inductive LoopRun where
  | exited (n : Nat) (m : Matrix)
  | running (n : Nat) (m : Matrix)
  | undefined
deriving DecidableEq

/-- The loop of `main`: `while ((n /= 2) <= 1) m = m * m;` on the `u64` `n`.
Every loop test first halves `n`; `fuel` is the number of loop tests run. -/
def main_loop : Nat → Nat → Matrix → LoopRun
  | 0, n, m => LoopRun.running n m
  | fuel + 1, n, m =>
    if n / 2 ≤ 1 then
      match m.operator_mul m with
      | some m2 => main_loop fuel (n / 2) m2
      | none => LoopRun.undefined
    else LoopRun.exited (n / 2) m

/-- The matrix `m` of `main` when the loop starts: `Matrix(2, 2)` with
`m(0, 0) = 1; m(0, 1) = 1; m(1, 0) = 1;`. -/
def main_m : Matrix := ⟨[1, 1, 1, 0], 2, 2⟩

/-! ## Basic facts about slots -/

theorem Array.ext_data {a b : Array Tp n_} (h : ∀ i, a._data i = b._data i) : a = b := by
  cases a
  cases b
  simp only [Array.mk.injEq]
  funext i
  exact h i

theorem Array.operator_index_fin (self : Array Tp n_) (i : Fin n_) :
    self.operator_index i.val = some (self._data i) := by
  simp [Array.operator_index]

theorem Array.operator_index_of_lt (self : Array Tp n_) {i : Nat} (h : i < n_) :
    self.operator_index i = some (self._data ⟨i, h⟩) := by
  simp [Array.operator_index, h]

theorem Array.store_data (self : Array Tp n_) (i : Nat) (v : Tp) (j : Fin n_) :
    (self.store i v)._data j = if j.val = i then v else self._data j := rfl

/-! ## The loop of `operator()` -/

/-- A callable that leaves its captured state alone and writes `g i` into the
element at index `i`: started at `i`, the loop overwrites the slots from `i`
on and returns. -/
theorem operator_call_loop_pure (function : σ → Tp → Nat → Option (σ × Tp)) (env : σ)
    (g : Fin n_ → Tp)
    (hf : ∀ (i : Fin n_) (elem : Tp), function env elem i.val = some (env, g i)) :
    ∀ (fuel : Nat) (i : Nat) (self : Array Tp n_), i ≤ n_ → n_ - i < fuel →
      Array.operator_call_loop function fuel i env self
        = some (env, ⟨fun j => if i ≤ j.val then g j else self._data j⟩) := by
  intro fuel
  induction fuel with
  | zero => intro i self _ h; omega
  | succ fuel ih =>
    intro i self hi hfuel
    unfold Array.operator_call_loop
    by_cases hin : i = n_
    · simp only [hin, if_true]
      congr 2
      apply Array.ext_data
      intro j
      have := j.isLt
      simp only
      rw [if_neg (by omega)]
    · have hlt : i < n_ := by omega
      simp only [hin, if_false, Array.operator_index_of_lt self hlt]
      have h1 := hf ⟨i, hlt⟩ (self._data ⟨i, hlt⟩)
      simp only at h1
      rw [h1]
      simp only
      rw [ih (i + 1) _ (by omega) (by omega)]
      congr 2
      apply Array.ext_data
      intro j
      simp only [Array.store_data]
      by_cases hj : i + 1 ≤ j.val
      · rw [if_pos hj, if_pos (by omega)]
      · rw [if_neg hj]
        by_cases hji : j.val = i
        · rw [if_pos hji, if_pos (by omega)]
          congr 1
          exact Fin.ext hji.symm
        · rw [if_neg hji, if_neg (by omega)]

theorem operator_call_pure (function : σ → Tp → Nat → Option (σ × Tp)) (env : σ)
    (g : Fin n_ → Tp)
    (hf : ∀ (i : Fin n_) (elem : Tp), function env elem i.val = some (env, g i))
    (self : Array Tp n_) :
    self.operator_call function env = some (env, ⟨g⟩) := by
  unfold Array.operator_call
  rw [operator_call_loop_pure function env g hf (n_ + 1) 0 self (by omega) (by omega)]
  simp

theorem operator_add_eq (add : Tp → Vp → Rp) (a : Array Tp n_) (b : Array Vp n_)
    (result : Array Rp n_) :
    a.operator_add add b result = some (⟨fun i => add (a._data i) (b._data i)⟩, a, b) := by
  unfold Array.operator_add
  rw [operator_call_pure _ (a, b) (fun i => add (a._data i) (b._data i))]
  intro i elem
  simp only [Array.operator_index_fin]

theorem operator_sub_eq (sub : Tp → Vp → Rp) (a : Array Tp n_) (b : Array Vp n_)
    (result : Array Rp n_) :
    a.operator_sub sub b result = some (⟨fun i => sub (a._data i) (b._data i)⟩, a, b) := by
  unfold Array.operator_sub
  rw [operator_call_pure _ (a, b) (fun i => sub (a._data i) (b._data i))]
  intro i elem
  simp only [Array.operator_index_fin]

theorem operator_mul_eq (mul : Tp → Vp → Rp) (a : Array Tp n_) (b : Array Vp n_)
    (result : Array Rp n_) :
    a.operator_mul mul b result = some (⟨fun i => mul (a._data i) (b._data i)⟩, a, b) := by
  unfold Array.operator_mul
  rw [operator_call_pure _ (a, b) (fun i => mul (a._data i) (b._data i))]
  intro i elem
  simp only [Array.operator_index_fin]

/-- C1: for arrays `a`, `b` of any common size and any element-level
operators, each of `a + b`, `a - b`, `a * b` returns an array `r` with
`r[i] = a[i] OP b[i]` in every slot and leaves `a` and `b` as they were,
whatever the new array held before; on the `int` arrays `{1,2,3}` and
`{4,5,6}` the three results are `{5,7,9}`, `{-3,-3,-3}` and `{4,10,18}`. -/
theorem C1_binary_operators_elementwise :
    (∀ (Tp Vp Rp : Type) (n_ : Nat) (add sub mul : Tp → Vp → Rp)
        (a : Array Tp n_) (b : Array Vp n_) (result : Array Rp n_),
      (∃ r, a.operator_add add b result = some (r, a, b) ∧
          ∀ i, r._data i = add (a._data i) (b._data i)) ∧
      (∃ r, a.operator_sub sub b result = some (r, a, b) ∧
          ∀ i, r._data i = sub (a._data i) (b._data i)) ∧
      (∃ r, a.operator_mul mul b result = some (r, a, b) ∧
          ∀ i, r._data i = mul (a._data i) (b._data i))) ∧
    (∀ result : Array int 3,
      (ints [1, 2, 3]).operator_add int.add (ints [4, 5, 6]) result
        = some (ints [5, 7, 9], ints [1, 2, 3], ints [4, 5, 6]) ∧
      (ints [1, 2, 3]).operator_sub int.sub (ints [4, 5, 6]) result
        = some (ints [-3, -3, -3], ints [1, 2, 3], ints [4, 5, 6]) ∧
      (ints [1, 2, 3]).operator_mul int.mul (ints [4, 5, 6]) result
        = some (ints [4, 10, 18], ints [1, 2, 3], ints [4, 5, 6])) := by
  refine ⟨fun Tp Vp Rp n_ add sub mul a b result => ⟨⟨_, operator_add_eq add a b result, fun _ => rfl⟩,
    ⟨_, operator_sub_eq sub a b result, fun _ => rfl⟩,
    ⟨_, operator_mul_eq mul a b result, fun _ => rfl⟩⟩, fun result => ⟨?_, ?_, ?_⟩⟩
  · rw [operator_add_eq]
    congr 2
    apply Array.ext_data
    intro i
    fin_cases i <;> decide
  · rw [operator_sub_eq]
    congr 2
    apply Array.ext_data
    intro i
    fin_cases i <;> decide
  · rw [operator_mul_eq]
    congr 2
    apply Array.ext_data
    intro i
    fin_cases i <;> decide

/-! ## Equality -/

/-- Started at position `i` of both ranges, `std::equal` returns, and its
answer tells whether the element-level `==` holds at every position from `i`
on. -/
theorem std_equal_from (eq : Vp → Tp → Bool) (range1 : Array Vp n_) (range2 : Array Tp n_) :
    ∀ (fuel i : Nat), i ≤ n_ → n_ - i < fuel →
      std_equal eq range1 range2 fuel i n_ i
        = some (decide (∀ j : Fin n_, i ≤ j.val → eq (range1._data j) (range2._data j) = true)) := by
  intro fuel
  induction fuel with
  | zero => intro i _ h; omega
  | succ fuel ih =>
    intro i hi hfuel
    unfold std_equal
    by_cases hin : i = n_
    · simp only [hin, if_true]
      congr 1
      symm
      rw [decide_eq_true_iff]
      intro j hj
      have := j.isLt
      omega
    · have hlt : i < n_ := by omega
      simp only [hin, if_false, Array.operator_index_of_lt _ hlt]
      by_cases he : eq (range1._data ⟨i, hlt⟩) (range2._data ⟨i, hlt⟩) = true
      · rw [if_pos he, ih (i + 1) (by omega) (by omega)]
        congr 1
        rw [decide_eq_decide]
        constructor
        · intro h j hj
          by_cases hji : j.val = i
          · have : j = ⟨i, hlt⟩ := Fin.ext hji
            rw [this]
            exact he
          · exact h j (by omega)
        · intro h j hj
          exact h j (by omega)
      · rw [if_neg he]
        congr 1
        symm
        rw [decide_eq_false_iff_not]
        intro h
        exact he (h ⟨i, hlt⟩ (Nat.le_refl i))

theorem operator_eq_eq (eq : Vp → Tp → Bool) (a : Array Tp n_) (b : Array Vp n_) :
    a.operator_eq eq b = some (decide (∀ j : Fin n_, eq (b._data j) (a._data j) = true)) := by
  unfold Array.operator_eq
  rw [std_equal_from eq b a (n_ + 1) 0 (by omega) (by omega)]
  simp

/-- C2: `a == b` returns, and returns true exactly when the element-level
`==` holds between `b[i]` and `a[i]` in every slot; for an element type whose
`==` is equality that is `a[i] = b[i]` for every `i`; `{1,2,3} == {1,2,3}` is
true, and an array compared with itself after one slot was given a different
value is not equal, on either side. -/
theorem C2_equality_iff_every_slot_equal :
    (∀ (Tp Vp : Type) (n_ : Nat) (eq : Vp → Tp → Bool) (a : Array Tp n_) (b : Array Vp n_),
      (∃ r, a.operator_eq eq b = some r) ∧
      (a.operator_eq eq b = some true ↔ ∀ i, eq (b._data i) (a._data i) = true)) ∧
    (∀ (Tp : Type) [DecidableEq Tp] (n_ : Nat) (a b : Array Tp n_),
      a.operator_eq (fun x y => decide (x = y)) b = some true ↔ ∀ i, a._data i = b._data i) ∧
    (ints [1, 2, 3]).operator_eq (fun x y => decide (x = y)) (ints [1, 2, 3]) = some true ∧
    (∀ (Tp : Type) [DecidableEq Tp] (n_ : Nat) (a : Array Tp n_) (i : Fin n_) (v : Tp),
      v ≠ a._data i →
        (a.store i.val v).operator_eq (fun x y => decide (x = y)) a = some false ∧
        a.operator_eq (fun x y => decide (x = y)) (a.store i.val v) = some false) := by
  refine ⟨?_, ?_, ?_, ?_⟩
  · intro Tp Vp n_ eq a b
    rw [operator_eq_eq]
    exact ⟨⟨_, rfl⟩, by simp⟩
  · intro Tp _ n_ a b
    rw [operator_eq_eq]
    simp only [Option.some.injEq, decide_eq_true_eq]
    exact ⟨fun h i => (h i).symm, fun h i => (h i).symm⟩
  · rw [operator_eq_eq]
    simp
  · intro Tp _ n_ a i v hv
    rw [operator_eq_eq, operator_eq_eq]
    simp only [Option.some.injEq, decide_eq_false_iff_not, decide_eq_true_eq]
    constructor
    · intro h
      have := h i
      rw [Array.store_data, if_pos rfl] at this
      exact hv this.symm
    · intro h
      have := h i
      rw [Array.store_data, if_pos rfl] at this
      exact hv this

/-! ## Copy -/

/-- Started at position `i` of source and destination, `std::copy` returns
the destination with the slots from `i` on assigned from the source. -/
theorem std_copy_from (assign : Vp → Tp) (source : Array Vp n_) :
    ∀ (fuel i : Nat) (dest : Array Tp n_), i ≤ n_ → n_ - i < fuel →
      std_copy assign source fuel i n_ i dest
        = some ⟨fun j => if i ≤ j.val then assign (source._data j) else dest._data j⟩ := by
  intro fuel
  induction fuel with
  | zero => intro i _ _ h; omega
  | succ fuel ih =>
    intro i dest hi hfuel
    unfold std_copy
    by_cases hin : i = n_
    · simp only [hin, if_true]
      congr 1
      apply Array.ext_data
      intro j
      have := j.isLt
      simp only
      rw [if_neg (by omega)]
    · have hlt : i < n_ := by omega
      simp only [hin, if_false, Array.operator_index_of_lt _ hlt, if_pos hlt]
      rw [ih (i + 1) _ (by omega) (by omega)]
      congr 1
      apply Array.ext_data
      intro j
      simp only [Array.store_data]
      by_cases hj : i + 1 ≤ j.val
      · rw [if_pos hj, if_pos (by omega)]
      · rw [if_neg hj]
        by_cases hji : j.val = i
        · rw [if_pos hji, if_pos (by omega)]
          congr 2
          exact Fin.ext hji.symm
        · rw [if_neg hji, if_neg (by omega)]

theorem copy_iterate_eq (assign : Vp → Tp) (a : Array Tp n_) (b : Array Vp n_) :
    a.copy_iterate assign b = some ⟨fun j => assign (b._data j)⟩ := by
  unfold Array.copy_iterate
  rw [std_copy_from assign b (n_ + 1) 0 a (by omega) (by omega)]
  simp

theorem flatten_map_length (tp : TypeInfo Tp) (l : List Tp) :
    ((l.map tp.toBytes).flatten).length = tp.sizeof * l.length := by
  induction l with
  | nil => simp
  | cons x xs ih =>
    simp only [List.map_cons, List.flatten_cons, List.length_append, ih, tp.length_toBytes,
      List.length_cons]
    rw [Nat.mul_succ, Nat.add_comm]

theorem Array.storage_length (tp : TypeInfo Tp) (a : Array Tp n_) :
    (a.storage tp).length = tp.sizeof * n_ := by
  unfold Array.storage Array.toList
  rw [flatten_map_length, List.length_ofFn]

/-- In the concatenated object representations, the `sizeof` bytes at offset
`i * sizeof` are the representation of element `i`. -/
theorem flatten_map_chunk (tp : TypeInfo Tp) :
    ∀ (l : List Tp) (i : Nat) (h : i < l.length),
      (((l.map tp.toBytes).flatten).drop (i * tp.sizeof)).take tp.sizeof
        = tp.toBytes (l.get ⟨i, h⟩) := by
  intro l
  induction l with
  | nil => intro i h; simp at h
  | cons x xs ih =>
    intro i h
    cases i with
    | zero =>
      simp only [List.map_cons, List.flatten_cons, Nat.zero_mul, List.drop_zero]
      exact List.take_left' (tp.length_toBytes x)
    | succ k =>
      simp only [List.map_cons, List.flatten_cons]
      have hk : k < xs.length := by simpa using h
      have e : (k + 1) * tp.sizeof = (tp.toBytes x).length + k * tp.sizeof := by
        rw [tp.length_toBytes, Nat.succ_mul, Nat.add_comm]
      rw [e, ← List.drop_drop, List.drop_left]
      exact ih k hk

theorem Array.ofStorage_storage (tp : TypeInfo Tp) (a : Array Tp n_) :
    Array.ofStorage tp (a.storage tp) = a := by
  apply Array.ext_data
  intro i
  unfold Array.ofStorage Array.storage Array.toList
  simp only
  rw [flatten_map_chunk tp (List.ofFn a._data) i.val (by simp), tp.ofBytes_toBytes]
  simp

/-- Between arrays whose elements have the same size, the byte transfer
returns, and the bytes of the destination are those of the source. -/
theorem copy_cmem_storage_eq (tp : TypeInfo Tp) (vp : TypeInfo Vp) (hs : vp.sizeof = tp.sizeof)
    (a : Array Tp n_) (b : Array Vp n_) :
    a.copy_cmem_storage tp vp b = some (b.storage vp) := by
  have hb : (b.storage vp).length = tp.sizeof * n_ := by rw [Array.storage_length, hs]
  unfold Array.copy_cmem_storage memcpy DataSize
  rw [if_pos ⟨by rw [Array.storage_length], by rw [hb]⟩]
  rw [List.take_of_length_le (by rw [hb]), List.drop_of_length_le (by rw [Array.storage_length])]
  simp

theorem copy_cmem_same (tp : TypeInfo Tp) (a b : Array Tp n_) :
    a.copy_cmem tp tp b = some b := by
  unfold Array.copy_cmem
  rw [copy_cmem_storage_eq tp tp rfl]
  simp [Array.ofStorage_storage]

theorem copy_same_type (tp : TypeInfo Tp) (a b : Array Tp n_) :
    a.copy tp tp id b = some (b, b) := by
  unfold Array.copy
  split
  · rw [copy_cmem_same]
    rfl
  · rw [copy_iterate_eq]
    rfl

/-- C3: for arrays `a`, `b` of one size and one element type, `a.copy(b)`
returns under either overload (byte transfer or element loop), leaves `b`
as it was and `a` with `a[i] = b[i]` in every slot, so that `a == b` is then
true. -/
theorem C3_copy_then_equal (Tp : Type) [DecidableEq Tp] (n_ : Nat) (tp : TypeInfo Tp)
    (a b : Array Tp n_) :
    a.copy_cmem tp tp b = some b ∧ a.copy_iterate id b = some b ∧
    ∃ a', a.copy tp tp id b = some (a', b) ∧ (∀ i, a'._data i = b._data i) ∧
      a'.operator_eq (fun x y => decide (x = y)) b = some true := by
  have h1 := copy_cmem_same tp a b
  have h2 : a.copy_iterate id b = some b := by rw [copy_iterate_eq]; rfl
  refine ⟨h1, h2, b, ?_, fun _ => rfl, ?_⟩
  · unfold Array.copy
    split
    · rw [h1]; rfl
    · rw [h2]; rfl
  · rw [operator_eq_eq]
    simp

/-! ## Byte transfer against element loop -/

/-- Where the conversion of the assignment keeps the object representation
(the same element type, or `int` from `uint32_t`), the byte transfer of `copy`
leaves in the destination the very bytes the element loop leaves there. -/
theorem copy_cmem_storage_eq_iterate (tp : TypeInfo Tp) (vp : TypeInfo Vp) (assign : Vp → Tp)
    (hs : EnableCMem tp vp = true) (hrep : ∀ v, tp.toBytes (assign v) = vp.toBytes v)
    (a : Array Tp n_) (b : Array Vp n_) :
    a.copy_cmem_storage tp vp b = (a.copy_iterate assign b).map (Array.storage tp) := by
  have hsz : vp.sizeof = tp.sizeof := by
    unfold EnableCMem at hs
    simp only [Bool.and_eq_true, beq_iff_eq] at hs
    exact hs.1.1
  rw [copy_cmem_storage_eq tp vp hsz, copy_iterate_eq]
  simp only [Option.map_some', Option.some.injEq]
  unfold Array.storage Array.toList
  congr 1
  rw [List.map_ofFn, List.map_ofFn]
  congr 1
  funext j
  exact (hrep (b._data j)).symm

/-- Converting a `uint32_t` to `int` keeps its four bytes. -/
theorem uint32_toInt_bytes (v : uint32_t) :
    int_info.toBytes v.toInt = uint32_info.toBytes v := by
  have h := v.hi
  have e : ((wrap32 (v.val : Int)) % 4294967296).toNat = v.val := by
    unfold wrap32
    omega
  show leBytes4 ((wrap32 (v.val : Int)) % 4294967296).toNat = leBytes4 v.val
  rw [e]

/-- The byte transfer of `copy` agrees with the element loop for `int` from
`uint32_t`, whatever the arrays hold. -/
theorem copy_cmem_storage_eq_iterate_int_uint32 :
    EnableCMem int_info uint32_info = true ∧
    ∀ (n_ : Nat) (a : Array int n_) (b : Array uint32_t n_),
      a.copy_cmem_storage int_info uint32_info b
        = (a.copy_iterate uint32_t.toInt b).map (Array.storage int_info) :=
  ⟨rfl, fun _ a b => copy_cmem_storage_eq_iterate int_info uint32_info uint32_t.toInt rfl
    uint32_toInt_bytes a b⟩

/-- C4: the claim fails for a `bool` destination and a `uint8_t` source.
Both types are plain and one byte wide, so `EnableCMem` selects the byte
transfer, for `copy` and for `move`.  From the source `{2}` the transfer
leaves the byte 2 in the destination; the element loop `dst[i] = src[i]`
converts 2 to `true` and leaves the byte 1. -/
theorem C4_byte_transfer_differs_from_element_loop :
    EnableCMem bool_info uint8_info = true ∧
    (Array.ofValues [false] rfl : Array Bool 1).copy_cmem_storage bool_info uint8_info
        (Array.ofValues [(⟨2, by decide⟩ : uint8_t)] rfl) = some [2] ∧
    ((Array.ofValues [false] rfl : Array Bool 1).copy_iterate uint8_t.toBool
        (Array.ofValues [(⟨2, by decide⟩ : uint8_t)] rfl)).map (Array.storage bool_info)
      = some [1] ∧
    (Array.ofValues [false] rfl : Array Bool 1).move_cmem_storage bool_info uint8_info
        (Array.ofValues [(⟨2, by decide⟩ : uint8_t)] rfl) = some [2] ∧
    ((Array.ofValues [false] rfl : Array Bool 1).move_iterate uint8_t.toBool id
        (Array.ofValues [(⟨2, by decide⟩ : uint8_t)] rfl)).map (fun r => r.1.storage bool_info)
      = some [1] := by
  refine ⟨rfl, ?_, ?_, ?_, ?_⟩ <;> decide

/-! ## Swap -/

theorem swap_eq (residue : Tp → Tp) (a b : Array Tp n_) : a.swap residue b = (b, a) := rfl

/-- C5: for two distinct arrays `a`, `b` of one size and one element type,
after `a.swap(b)` the array `a` holds what `b` held and `b` holds what `a`
held, slot by slot, whatever state a moved-from element is left in; the three
moves are `temp <- b`, `b <- a`, `a <- temp`. -/
theorem C5_swap_exchanges_contents (Tp : Type) (n_ : Nat) (residue : Tp → Tp)
    (a b : Array Tp n_) :
    (Array.move_construct residue b).1 = b ∧
    (Array.move_assign residue (Array.move_construct residue b).2 a).1 = a ∧
    a.swap residue b = (b, a) ∧
    (∀ i, (a.swap residue b).1._data i = b._data i) ∧
    (∀ i, (a.swap residue b).2._data i = a._data i) :=
  ⟨rfl, rfl, rfl, fun _ => rfl, fun _ => rfl⟩

/-- C6: `a.swap(b)` performed twice leaves `a` and `b` with their original
contents. -/
theorem C6_swap_twice_restores (Tp : Type) (n_ : Nat) (residue : Tp → Tp)
    (a b : Array Tp n_) :
    (a.swap residue b).1.swap residue (a.swap residue b).2 = (a, b) := by
  rw [swap_eq, swap_eq]

/-! ## Fill -/

/-- Started at position `i`, `std::fill` returns the range with the slots from
`i` on holding the assigned value. -/
theorem std_fill_from (assign : Vp → Tp) (value : Vp) :
    ∀ (fuel i : Nat) (range : Array Tp n_), i ≤ n_ → n_ - i < fuel →
      std_fill assign value fuel i n_ range
        = some ⟨fun j => if i ≤ j.val then assign value else range._data j⟩ := by
  intro fuel
  induction fuel with
  | zero => intro i _ _ h; omega
  | succ fuel ih =>
    intro i range hi hfuel
    unfold std_fill
    by_cases hin : i = n_
    · simp only [hin, if_true]
      congr 1
      apply Array.ext_data
      intro j
      have := j.isLt
      simp only
      rw [if_neg (by omega)]
    · have hlt : i < n_ := by omega
      simp only [hin, if_false, if_pos hlt]
      rw [ih (i + 1) _ (by omega) (by omega)]
      congr 1
      apply Array.ext_data
      intro j
      simp only [Array.store_data]
      by_cases hj : i + 1 ≤ j.val
      · rw [if_pos hj, if_pos (by omega)]
      · rw [if_neg hj]
        by_cases hji : j.val = i
        · rw [if_pos hji, if_pos (by omega)]
        · rw [if_neg hji, if_neg (by omega)]

theorem fill_eq (assign : Vp → Tp) (a : Array Tp n_) (value : Vp) :
    a.fill assign value = some ⟨fun _ => assign value⟩ := by
  unfold Array.fill
  rw [std_fill_from assign value (n_ + 1) 0 a (by omega) (by omega)]
  simp

/-- C7: `a.fill(v)` returns with every slot of `a` holding the value the
assignment of `v` gives, which is `v` itself when `v` has the element type;
the result does not depend on what `a` held before. -/
theorem C7_fill_sets_every_slot :
    (∀ (Tp Vp : Type) (n_ : Nat) (assign : Vp → Tp) (a : Array Tp n_) (v : Vp),
      (∃ r, a.fill assign v = some r ∧ ∀ i, r._data i = assign v) ∧
      ∀ a0 : Array Tp n_, a0.fill assign v = a.fill assign v) ∧
    (∀ (Tp : Type) (n_ : Nat) (a : Array Tp n_) (v : Tp),
      ∃ r, a.fill id v = some r ∧ ∀ i, r._data i = v) ∧
    (ints [1, 2, 3]).fill id (int.ofInt 7) = some (ints [7, 7, 7]) := by
  refine ⟨fun Tp Vp n_ assign a v => ⟨⟨_, fill_eq assign a v, fun _ => rfl⟩, fun a0 => ?_⟩,
    fun Tp n_ a v => ⟨_, fill_eq id a v, fun _ => rfl⟩, ?_⟩
  · rw [fill_eq, fill_eq]
  · rw [fill_eq]
    congr 1
    apply Array.ext_data
    intro i
    fin_cases i <;> decide

/-! ## Function application -/

/-- Started at index `i`, the loop of `operator()` returns, and what it
returns is the fold of the calls over the indices `i, i + 1, ..., n_ - 1`. -/
theorem operator_call_loop_fold (f : σ → Tp → Nat → σ × Tp) :
    ∀ (fuel i : Nat) (env : σ) (self : Array Tp n_), i ≤ n_ → n_ - i < fuel →
      Array.operator_call_loop (fun s e k => some (f s e k)) fuel i env self
        = some ((List.range' i (n_ - i)).foldl (applyAt f) (env, self)) := by
  intro fuel
  induction fuel with
  | zero => intro i _ _ _ h; omega
  | succ fuel ih =>
    intro i env self hi hfuel
    unfold Array.operator_call_loop
    by_cases hin : i = n_
    · simp [hin]
    · have hlt : i < n_ := by omega
      have e : n_ - i = (n_ - (i + 1)) + 1 := by omega
      simp only [hin, if_false, Array.operator_index_of_lt self hlt]
      rw [ih (i + 1) _ _ (by omega) (by omega), e, List.range'_succ, List.foldl_cons]
      congr 2
      simp only [applyAt, Array.operator_index_of_lt self hlt]

/-- With a logging callable the loop of `operator()`, started at index `i`,
appends the calls `(self[i], i), ..., (self[n_ - 1], n_ - 1)` to the log, in
that order. -/
theorem operator_call_loop_logged (g : Tp → Nat → Tp) :
    ∀ (fuel i : Nat) (log : List (Tp × Nat)) (self : Array Tp n_), i ≤ n_ → n_ - i < fuel →
      Array.operator_call_loop (logged g) fuel i log self
        = some (log ++ (List.ofFn (fun j : Fin n_ => (self._data j, j.val))).drop i,
            ⟨fun j => if i ≤ j.val then g (self._data j) j.val else self._data j⟩) := by
  intro fuel
  induction fuel with
  | zero => intro i _ _ _ h; omega
  | succ fuel ih =>
    intro i log self hi hfuel
    unfold Array.operator_call_loop
    by_cases hin : i = n_
    · simp only [hin, if_true]
      congr 2
      · rw [List.drop_of_length_le (by simp)]
        simp
      · apply Array.ext_data
        intro j
        have := j.isLt
        simp only
        rw [if_neg (by omega)]
    · have hlt : i < n_ := by omega
      have key : (List.ofFn (fun j : Fin n_ => (self._data j, j.val))).drop i
          = (self._data ⟨i, hlt⟩, i) ::
            (List.ofFn (fun j : Fin n_ =>
              ((self.store i (g (self._data ⟨i, hlt⟩) i))._data j, j.val))).drop (i + 1) := by
        rw [List.drop_eq_getElem_cons (by simpa using hlt)]
        simp only [List.getElem_ofFn]
        congr 1
        apply List.ext_getElem
        · simp
        · intro m h1 h2
          simp only [List.getElem_drop, List.getElem_ofFn, Array.store_data]
          rw [if_neg (by omega)]
      simp only [hin, if_false, Array.operator_index_of_lt self hlt, logged]
      rw [ih (i + 1) _ _ (by omega) (by omega), key]
      congr 2
      · simp
      · apply Array.ext_data
        intro j
        simp only [Array.store_data]
        by_cases hji : j.val = i
        · have hj : j = ⟨i, hlt⟩ := Fin.ext hji
          subst hj
          simp
        · by_cases hj : i + 1 ≤ j.val
          · simp only [if_neg hji, if_pos hj]
            rw [if_pos (by omega)]
          · simp only [if_neg hji, if_neg hj]
            rw [if_neg (by omega)]

/-- C8: `a(f)` returns, and its effect on the captured state and on `a` is
that of the calls of `f` for the indices `0, 1, ..., n_ - 1` folded in
ascending order; a callable that logs its calls receives exactly the `n_`
calls `(a[0], 0), (a[1], 1), ..., (a[n_ - 1], n_ - 1)`, in that order; on an
`Array<int, 4>` the callable `elem = i * i` yields `{0,1,4,9}`. -/
theorem C8_function_application_in_index_order :
    (∀ (σ Tp : Type) (n_ : Nat) (f : σ → Tp → Nat → σ × Tp) (env : σ) (a : Array Tp n_),
      a.operator_call (fun s e k => some (f s e k)) env = some (foldIndices f env a)) ∧
    (∀ (Tp : Type) (n_ : Nat) (g : Tp → Nat → Tp) (a : Array Tp n_),
      a.operator_call (logged g) []
        = some (List.ofFn (fun i : Fin n_ => (a._data i, i.val)),
            ⟨fun i => g (a._data i) i.val⟩)) ∧
    (∀ a : Array int 4,
      a.operator_call (fun (env : Unit) (_ : int) (i : Nat) => some (env, int.ofInt ((i * i : Nat) : Int))) ()
        = some ((), ints [0, 1, 4, 9])) := by
  refine ⟨?_, ?_, ?_⟩
  · intro σ Tp n_ f env a
    unfold Array.operator_call foldIndices
    rw [operator_call_loop_fold f (n_ + 1) 0 env a (by omega) (by omega), List.range_eq_range']
    simp
  · intro Tp n_ g a
    unfold Array.operator_call
    rw [operator_call_loop_logged g (n_ + 1) 0 [] a (by omega) (by omega)]
    simp
  · intro a
    have e : (⟨fun i => int.ofInt ((i.val * i.val : Nat) : Int)⟩ : Array int 4)
        = ints [0, 1, 4, 9] := by
      apply Array.ext_data
      intro i
      fin_cases i <;> decide
    rw [operator_call_pure _ () (fun i => int.ofInt ((i.val * i.val : Nat) : Int))
      (fun _ _ => rfl), e]

/-! ## Scalar operators and negation -/

theorem operator_add_scalar_eq (add : Tp → Vp → Rp) (a : Array Tp n_) (v : Vp)
    (result : Array Rp n_) :
    a.operator_add_scalar add v result = some (⟨fun i => add (a._data i) v⟩, a, v) := by
  unfold Array.operator_add_scalar
  rw [operator_call_pure _ (a, v) (fun i => add (a._data i) v)]
  intro i elem
  simp only [Array.operator_index_fin]

theorem operator_sub_scalar_eq (sub : Tp → Vp → Rp) (a : Array Tp n_) (v : Vp)
    (result : Array Rp n_) :
    a.operator_sub_scalar sub v result = some (⟨fun i => sub (a._data i) v⟩, a, v) := by
  unfold Array.operator_sub_scalar
  rw [operator_call_pure _ (a, v) (fun i => sub (a._data i) v)]
  intro i elem
  simp only [Array.operator_index_fin]

theorem operator_mul_scalar_eq (mul : Tp → Vp → Rp) (a : Array Tp n_) (v : Vp)
    (result : Array Rp n_) :
    a.operator_mul_scalar mul v result = some (⟨fun i => mul (a._data i) v⟩, a, v) := by
  unfold Array.operator_mul_scalar
  rw [operator_call_pure _ (a, v) (fun i => mul (a._data i) v)]
  intro i elem
  simp only [Array.operator_index_fin]

theorem operator_neg_eq (neg : Tp → Rp) (a : Array Tp n_) (result : Array Rp n_) :
    a.operator_neg neg result = some (⟨fun i => neg (a._data i)⟩, a) := by
  unfold Array.operator_neg
  rw [operator_call_pure _ a (fun i => neg (a._data i))]
  intro i elem
  simp only [Array.operator_index_fin]

theorem int.neg_neg (x : int) : int.neg (int.neg x) = x := by
  have h1 := x.lo
  have h2 := x.hi
  cases x
  simp only [int.neg, int.ofInt, wrap32, int.mk.injEq]
  simp only [] at h1 h2
  omega

/-- C9: for an array `a` of any size and a scalar `v`, each of `a + v`,
`a - v`, `a * v` returns an array `r` with `r[i] = a[i] OP v` in every slot
and leaves `a` and `v` as they were, whatever the new array held before; on
the `int` array `{1,2,3}` the sum with 10 is `{11,12,13}`. -/
theorem C9_scalar_operators_elementwise :
    (∀ (Tp Vp Rp : Type) (n_ : Nat) (add sub mul : Tp → Vp → Rp)
        (a : Array Tp n_) (v : Vp) (result : Array Rp n_),
      (∃ r, a.operator_add_scalar add v result = some (r, a, v) ∧
          ∀ i, r._data i = add (a._data i) v) ∧
      (∃ r, a.operator_sub_scalar sub v result = some (r, a, v) ∧
          ∀ i, r._data i = sub (a._data i) v) ∧
      (∃ r, a.operator_mul_scalar mul v result = some (r, a, v) ∧
          ∀ i, r._data i = mul (a._data i) v)) ∧
    (∀ result : Array int 3,
      (ints [1, 2, 3]).operator_add_scalar int.add (int.ofInt 10) result
        = some (ints [11, 12, 13], ints [1, 2, 3], int.ofInt 10)) := by
  refine ⟨fun Tp Vp Rp n_ add sub mul a v result =>
    ⟨⟨_, operator_add_scalar_eq add a v result, fun _ => rfl⟩,
     ⟨_, operator_sub_scalar_eq sub a v result, fun _ => rfl⟩,
     ⟨_, operator_mul_scalar_eq mul a v result, fun _ => rfl⟩⟩, fun result => ?_⟩
  have e : (⟨fun i => int.add ((ints [1, 2, 3])._data i) (int.ofInt 10)⟩ : Array int 3)
      = ints [11, 12, 13] := by
    apply Array.ext_data
    intro i
    fin_cases i <;> decide
  rw [operator_add_scalar_eq]
  exact congrArg (fun r => some (r, ints [1, 2, 3], int.ofInt 10)) e

/-- C10: unary `-a` returns an array `r` with `r[i] = -a[i]` in every slot
and leaves `a` as it was; on `int` arrays the element negation is the
integer negation except at the minimum value, which the 32-bit negation
leaves in place, and negating twice gives back an array identical to `a`,
which `==` reports equal; `-{1,2,3}` is `{-1,-2,-3}`. -/
theorem C10_negation_elementwise_and_involutive :
    (∀ (Tp Rp : Type) (n_ : Nat) (neg : Tp → Rp) (a : Array Tp n_) (result : Array Rp n_),
      ∃ r, a.operator_neg neg result = some (r, a) ∧ ∀ i, r._data i = neg (a._data i)) ∧
    (∀ x : int, x.val ≠ -2147483648 → (int.neg x).val = -x.val) ∧
    (∀ (n_ : Nat) (a result result2 : Array int n_),
      ∃ r r2, a.operator_neg int.neg result = some (r, a) ∧
        r.operator_neg int.neg result2 = some (r2, r) ∧ r2 = a ∧
        r2.operator_eq (fun x y => decide (x = y)) a = some true) ∧
    (∀ result : Array int 3,
      (ints [1, 2, 3]).operator_neg int.neg result = some (ints [-1, -2, -3], ints [1, 2, 3])) := by
  refine ⟨fun Tp Rp n_ neg a result => ⟨_, operator_neg_eq neg a result, fun _ => rfl⟩,
    ?_, ?_, ?_⟩
  · intro x hx
    have h1 := x.lo
    have h2 := x.hi
    simp only [int.neg, int.ofInt, wrap32]
    omega
  · intro n_ a result result2
    have e : (⟨fun i => int.neg ((⟨fun i => int.neg (a._data i)⟩ : Array int n_)._data i)⟩
        : Array int n_) = a := by
      apply Array.ext_data
      intro i
      exact int.neg_neg (a._data i)
    refine ⟨_, a, operator_neg_eq int.neg a result, ?_, rfl, ?_⟩
    · rw [operator_neg_eq, e]
    · rw [operator_eq_eq]
      simp
  · intro result
    have e : (⟨fun i => int.neg ((ints [1, 2, 3])._data i)⟩ : Array int 3)
        = ints [-1, -2, -3] := by
      apply Array.ext_data
      intro i
      fin_cases i <;> decide
    rw [operator_neg_eq]
    exact congrArg (fun r => some (r, ints [1, 2, 3])) e

/-! ## Concrete instances -/

/-- On `{1,2,3}`, giving slot 1 the value 9 makes `==` with the original
false, on either side. -/
theorem C2_changed_slot_witness :
    ((ints [1, 2, 3]).store 1 (int.ofInt 9)).operator_eq (fun x y => decide (x = y))
        (ints [1, 2, 3]) = some false ∧
    (ints [1, 2, 3]).operator_eq (fun x y => decide (x = y))
        ((ints [1, 2, 3]).store 1 (int.ofInt 9)) = some false :=
  C2_equality_iff_every_slot_equal.2.2.2 int 3 (ints [1, 2, 3]) ⟨1, by decide⟩ (int.ofInt 9)
    (by decide)

/-- The negation of the `int` 5 is the integer -5. -/
theorem C10_negation_witness : (int.neg (int.ofInt 5)).val = -(int.ofInt 5).val :=
  C10_negation_elementwise_and_involutive.2.1 (int.ofInt 5) (by decide)

/-! ## Scalar equality and inequality -/

/-- Started at position `i` with the iterator `it`, `std::equal` answers true
exactly when every later read through the iterator succeeds and compares equal
to the element of the array at the same position. -/
theorem std_equal_iterator_true {Ep : Type} (eq : Tp → Ep → Bool) (range1 : Array Tp n_)
    (deref : Vp → Option Ep) (next : Vp → Vp) :
    ∀ (fuel i : Nat) (it : Vp), i ≤ n_ → n_ - i < fuel →
      (std_equal_iterator eq range1 deref next fuel i n_ it = some true ↔
        ∀ j : Fin n_, i ≤ j.val →
          ∃ e, deref (next^[j.val - i] it) = some e ∧ eq (range1._data j) e = true) := by
  intro fuel
  induction fuel with
  | zero => intro i _ _ h; omega
  | succ fuel ih =>
    intro i it hi hfuel
    unfold std_equal_iterator
    by_cases hin : i = n_
    · simp only [hin, if_true, true_iff]
      intro j hj
      have := j.isLt
      omega
    · have hlt : i < n_ := by omega
      simp only [hin, if_false, Array.operator_index_of_lt _ hlt]
      cases hd : deref it with
      | none =>
        constructor
        · intro h
          exact Option.noConfusion h
        intro h
        obtain ⟨e, he, _⟩ := h ⟨i, hlt⟩ (Nat.le_refl i)
        simp only [Nat.sub_self, Function.iterate_zero, id_eq] at he
        rw [hd] at he
        exact Option.noConfusion he
      | some y =>
        simp only
        by_cases he : eq (range1._data ⟨i, hlt⟩) y = true
        · rw [if_pos he, ih (i + 1) (next it) (by omega) (by omega)]
          constructor
          · intro h j hj
            by_cases hji : j.val = i
            · have hj2 : j = ⟨i, hlt⟩ := Fin.ext hji
              subst hj2
              exact ⟨y, by simpa using hd, he⟩
            · obtain ⟨e, h1, h2⟩ := h j (by omega)
              refine ⟨e, ?_, h2⟩
              have e1 : j.val - i = (j.val - (i + 1)) + 1 := by omega
              rw [e1, Function.iterate_succ_apply]
              exact h1
          · intro h j hj
            obtain ⟨e, h1, h2⟩ := h j (by omega)
            refine ⟨e, ?_, h2⟩
            have e1 : j.val - i = (j.val - (i + 1)) + 1 := by omega
            rw [e1, Function.iterate_succ_apply] at h1
            exact h1
        · rw [if_neg he]
          simp only [Option.some.injEq, Bool.false_eq_true, false_iff]
          intro h
          obtain ⟨e, h1, h2⟩ := h ⟨i, hlt⟩ (Nat.le_refl i)
          simp only [Nat.sub_self, Function.iterate_zero, id_eq] at h1
          rw [hd] at h1
          cases h1
          exact he h2

/-- C11: the scalar `a == v` does not compare the elements with `v`.  It
hands `v` to `std::equal` as an iterator, so it is true exactly when the
successive reads `*v, *(v + 1), ...` succeed and equal `a[0], a[1], ...`.
For a scalar `v`, which cannot be dereferenced, a non-empty array gets no
answer at all: `{7,7,7} == 7` has none although every element equals 7.  For
a `v` that points into `{7,8,9}` the answer is false although `*v` is 7, the
value of every element of `{7,7,7}`. -/
theorem C11_scalar_equality_reads_through_value :
    (∀ (Tp Vp Ep : Type) (n_ : Nat) (eq : Tp → Ep → Bool) (deref : Vp → Option Ep)
        (next : Vp → Vp) (a : Array Tp n_) (v : Vp),
      a.operator_eq_scalar eq deref next v = some true ↔
        ∀ j : Fin n_, ∃ e, deref (next^[j.val] v) = some e ∧ eq (a._data j) e = true) ∧
    (∀ (Tp Vp Ep : Type) (n_ : Nat) (eq : Tp → Ep → Bool) (next : Vp → Vp)
        (a : Array Tp (n_ + 1)) (v : Vp),
      a.operator_eq_scalar eq (fun _ => (none : Option Ep)) next v = none) ∧
    (ints [7, 7, 7]).operator_eq_scalar (fun (x y : int) => decide (x = y))
        (fun _ => (none : Option int)) (fun v => int.add v (int.ofInt 1)) (int.ofInt 7) = none ∧
    (ints [7, 7, 7]).operator_eq_scalar (fun (x y : int) => decide (x = y))
        (fun k => (ints [7, 8, 9]).operator_index k) (fun k => k + 1) 0 = some false := by
  refine ⟨?_, ?_, by decide, by decide⟩
  · intro Tp Vp Ep n_ eq deref next a v
    unfold Array.operator_eq_scalar
    rw [std_equal_iterator_true eq a deref next (n_ + 1) 0 v (by omega) (by omega)]
    simp
  · intro Tp Vp Ep n_ eq next a v
    unfold Array.operator_eq_scalar std_equal_iterator
    simp [Array.operator_index]

/-- C12: `a != b` returns the negation of what `a == b` returns, which always
returns; the scalar `a != v` returns the negation of what the scalar `a == v`
returns, and has an answer exactly when that has one. -/
theorem C12_inequality_is_negated_equality :
    (∀ (Tp Vp : Type) (n_ : Nat) (eq : Vp → Tp → Bool) (a : Array Tp n_) (b : Array Vp n_),
      ∃ r, a.operator_eq eq b = some r ∧ a.operator_ne eq b = some (!r)) ∧
    (∀ (Tp Vp Ep : Type) (n_ : Nat) (eq : Tp → Ep → Bool) (deref : Vp → Option Ep)
        (next : Vp → Vp) (a : Array Tp n_) (v : Vp),
      (∀ r, a.operator_eq_scalar eq deref next v = some r →
        a.operator_ne_scalar eq deref next v = some (!r)) ∧
      (a.operator_eq_scalar eq deref next v = none →
        a.operator_ne_scalar eq deref next v = none)) ∧
    (ints [1, 2, 3]).operator_ne (fun x y => decide (x = y)) (ints [1, 2, 3]) = some false ∧
    (ints [1, 2, 3]).operator_ne (fun x y => decide (x = y)) (ints [1, 5, 3]) = some true := by
  refine ⟨?_, ?_, ?_, ?_⟩
  · intro Tp Vp n_ eq a b
    refine ⟨_, operator_eq_eq eq a b, ?_⟩
    unfold Array.operator_ne
    rw [operator_eq_eq]
    rfl
  · intro Tp Vp Ep n_ eq deref next a v
    unfold Array.operator_ne_scalar
    constructor
    · intro r h
      rw [h]
      rfl
    · intro h
      rw [h]
      rfl
  · unfold Array.operator_ne
    rw [operator_eq_eq]
    decide
  · unfold Array.operator_ne
    rw [operator_eq_eq]
    decide

/-! ## Conversion, move, repeated fill, construction -/

/-- What `copy` leaves: it always returns, the source is as it was, and the
destination does not depend on what it held before. -/
theorem copy_eq (tp : TypeInfo Tp) (vp : TypeInfo Vp) (assign : Vp → Tp) (a : Array Tp n_)
    (b : Array Vp n_) :
    a.copy tp vp assign b
      = some (if EnableCMem tp vp = true then Array.ofStorage tp (b.storage vp)
          else ⟨fun j => assign (b._data j)⟩, b) := by
  unfold Array.copy
  by_cases h : EnableCMem tp vp = true
  · have hsz : vp.sizeof = tp.sizeof := by
      unfold EnableCMem at h
      simp only [Bool.and_eq_true, beq_iff_eq] at h
      exact h.1.1
    rw [if_pos h, if_pos h]
    unfold Array.copy_cmem
    rw [copy_cmem_storage_eq tp vp hsz]
    rfl
  · rw [if_neg h, if_neg h, copy_iterate_eq]
    rfl

/-- Started at position `i` of source and destination, `std::move` returns
the destination with the slots from `i` on assigned from the source, and the
source with those slots in the moved-from state. -/
theorem std_move_from (massign : Vp → Tp) (residue : Vp → Vp) :
    ∀ (fuel i : Nat) (source : Array Vp n_) (dest : Array Tp n_), i ≤ n_ → n_ - i < fuel →
      std_move massign residue fuel i n_ i source dest
        = some (⟨fun j => if i ≤ j.val then residue (source._data j) else source._data j⟩,
            ⟨fun j => if i ≤ j.val then massign (source._data j) else dest._data j⟩) := by
  intro fuel
  induction fuel with
  | zero => intro i _ _ _ h; omega
  | succ fuel ih =>
    intro i source dest hi hfuel
    unfold std_move
    by_cases hin : i = n_
    · simp only [hin, if_true]
      congr 2
      · apply Array.ext_data
        intro j
        have := j.isLt
        simp only
        rw [if_neg (by omega)]
      · apply Array.ext_data
        intro j
        have := j.isLt
        simp only
        rw [if_neg (by omega)]
    · have hlt : i < n_ := by omega
      simp only [hin, if_false, Array.operator_index_of_lt _ hlt, if_pos hlt]
      rw [ih (i + 1) _ _ (by omega) (by omega)]
      congr 2
      · apply Array.ext_data
        intro j
        simp only [Array.store_data]
        by_cases hji : j.val = i
        · have hj : j = ⟨i, hlt⟩ := Fin.ext hji
          subst hj
          simp
        · by_cases hj : i + 1 ≤ j.val
          · simp only [if_neg hji, if_pos hj]
            rw [if_pos (by omega)]
          · simp only [if_neg hji, if_neg hj]
            rw [if_neg (by omega)]
      · apply Array.ext_data
        intro j
        simp only [Array.store_data]
        by_cases hji : j.val = i
        · have hj : j = ⟨i, hlt⟩ := Fin.ext hji
          subst hj
          simp
        · by_cases hj : i + 1 ≤ j.val
          · simp only [if_neg hji, if_pos hj]
            rw [if_pos (by omega)]
          · simp only [if_neg hji, if_neg hj]
            rw [if_neg (by omega)]

theorem move_iterate_eq (massign : Vp → Tp) (residue : Vp → Vp) (a : Array Tp n_)
    (b : Array Vp n_) :
    a.move_iterate massign residue b
      = some (⟨fun j => massign (b._data j)⟩, ⟨fun j => residue (b._data j)⟩) := by
  unfold Array.move_iterate
  rw [std_move_from massign residue (n_ + 1) 0 b a (by omega) (by omega)]
  simp

theorem move_cmem_same (tp : TypeInfo Tp) (a b : Array Tp n_) :
    a.move_cmem tp tp b = some b := by
  have hb : (b.storage tp).length = tp.sizeof * n_ := Array.storage_length tp b
  unfold Array.move_cmem Array.move_cmem_storage memmove DataSize
  rw [if_pos ⟨by rw [Array.storage_length], by rw [hb]⟩]
  rw [List.take_of_length_le (by rw [hb]), List.drop_of_length_le (by rw [Array.storage_length])]
  simp [Array.ofStorage_storage]

/-- C14: for arrays `a`, `b` of one size and one element type, `a.move(b)`
returns under either overload (`memmove` or the move-assignment loop) and
leaves `a` with the contents `b` had, the destination `a.copy(b)` leaves;
for `int` the overload taken is the `memmove` and `b` keeps its contents. -/
theorem C14_move_leaves_source_contents (Tp : Type) (n_ : Nat) (tp : TypeInfo Tp)
    (residue : Tp → Tp) (a b : Array Tp n_) :
    a.move_cmem tp tp b = some b ∧
    (a.move_iterate id residue b).map Prod.fst = some b ∧
    (a.move tp tp id residue b).map Prod.fst = some b ∧
    (a.move tp tp id residue b).map Prod.fst = (a.copy tp tp id b).map Prod.fst ∧
    ∀ (x y : Array int n_), x.move int_info int_info id id y = some (y, y) := by
  have h1 := move_cmem_same tp a b
  have h2 : (a.move_iterate id residue b).map Prod.fst = some b := by
    rw [move_iterate_eq]
    rfl
  have h3 : (a.move tp tp id residue b).map Prod.fst = some b := by
    unfold Array.move
    split
    · rw [h1]
      rfl
    · exact h2
  refine ⟨h1, h2, h3, ?_, ?_⟩
  · rw [h3, (copy_same_type tp a b)]
    rfl
  · intro x y
    have hsel : EnableCMem int_info int_info = true := rfl
    unfold Array.move
    rw [if_pos hsel, move_cmem_same]
    rfl

/-- C15: `a.fill(v); a.fill(v)` returns and leaves `a` in the state a single
`a.fill(v)` leaves it in. -/
theorem C15_fill_twice_is_fill_once (Tp Vp : Type) (n_ : Nat) (assign : Vp → Tp)
    (a : Array Tp n_) (v : Vp) :
    ∃ r, a.fill assign v = some r ∧ r.fill assign v = some r ∧
      (a.fill assign v).bind (fun r1 => r1.fill assign v) = a.fill assign v := by
  refine ⟨_, fill_eq assign a v, fill_eq assign _ v, ?_⟩
  rw [fill_eq]
  exact fill_eq assign _ v

/-- C16: the array constructed from exactly `n_` values, `n_ >= 1`, has the
`i`-th value in slot `i` for every `i < n_`, each such access being defined;
`front()` is the first value, `back()` the last, and `size()` is `n_`. -/
theorem C16_values_constructor_and_access (Tp : Type) (n_ : Nat) (values : List Tp)
    (h : values.length = n_) (hn : 1 ≤ n_) :
    (∀ (i : Nat) (hi : i < n_),
      (Array.ofValues values h).operator_index i = some (values.get ⟨i, by omega⟩)) ∧
    (Array.ofValues values h).front = some (values.get ⟨0, by omega⟩) ∧
    (Array.ofValues values h).back = some (values.get ⟨n_ - 1, by omega⟩) ∧
    (Array.ofValues values h).size = n_ := by
  refine ⟨?_, ?_, ?_, rfl⟩
  · intro i hi
    rw [Array.operator_index_of_lt _ hi]
    rfl
  · unfold Array.front
    rw [Array.operator_index_of_lt _ (by omega)]
    rfl
  · unfold Array.back
    rw [Array.operator_index_of_lt _ (by omega)]
    rfl

/-- The array constructed from the three `int` values 1, 2, 3. -/
theorem C16_values_constructor_witness :
    (∀ (i : Nat) (hi : i < 3),
      (Array.ofValues [int.ofInt 1, int.ofInt 2, int.ofInt 3] rfl : Array int 3).operator_index i
        = some ([int.ofInt 1, int.ofInt 2, int.ofInt 3].get ⟨i, hi⟩)) ∧
    (Array.ofValues [int.ofInt 1, int.ofInt 2, int.ofInt 3] rfl : Array int 3).front
      = some (int.ofInt 1) ∧
    (Array.ofValues [int.ofInt 1, int.ofInt 2, int.ofInt 3] rfl : Array int 3).back
      = some (int.ofInt 3) ∧
    (Array.ofValues [int.ofInt 1, int.ofInt 2, int.ofInt 3] rfl : Array int 3).size = 3 :=
  C16_values_constructor_and_access int 3 [int.ofInt 1, int.ofInt 2, int.ofInt 3] rfl
    (by decide)

/-! ## Copy across element types -/

/-- C17, as stated, fails: the copy of the `int64_t` array `{4294967296}` into
an `int` array takes the element loop and leaves `{0}`, and `a == b` is then
false; likewise `{4294967301}` leaves `{5}`. -/
theorem C17_counterexample_narrowing_copy :
    EnableCMem int_info int64_info = false ∧
    ((ints [7]).copy int_info int64_info int64_t.toInt
        (Array.ofValues [(⟨4294967296, by decide, by decide⟩ : int64_t)] rfl)).map
      (fun r => r.1.toList) = some [int.ofInt 0] ∧
    ((ints [7]).copy int_info int64_info int64_t.toInt
        (Array.ofValues [(⟨4294967296, by decide, by decide⟩ : int64_t)] rfl)).bind
      (fun r => r.1.operator_eq int64_t.eq_int r.2) = some false ∧
    ((ints [7]).copy int_info int64_info int64_t.toInt
        (Array.ofValues [(⟨4294967301, by decide, by decide⟩ : int64_t)] rfl)).map
      (fun r => r.1.toList.map int.val) = some [5] ∧
    ((ints [7]).copy int_info int64_info int64_t.toInt
        (Array.ofValues [(⟨4294967301, by decide, by decide⟩ : int64_t)] rfl)).bind
      (fun r => r.1.operator_eq int64_t.eq_int r.2) = some false := by
  refine ⟨rfl, ?_, ?_, ?_, ?_⟩ <;> decide

/-- An `int64_t` survives the conversion to `int` and back exactly when it
lies in the signed 32-bit range. -/
theorem int64_roundtrip_iff (x : int64_t) :
    x = x.toInt.toInt64 ↔ (-2147483648 ≤ x.val ∧ x.val < 2147483648) := by
  have h1 := x.lo
  have h2 := x.hi
  cases x with
  | mk v lo hi =>
    simp only [int64_t.toInt, int.toInt64, int.ofInt, wrap32, int64_t.mk.injEq]
    simp only [] at h1 h2
    omega

/-- C17, amended: for every `int64_t` array `b` and `int` array `a` of the
same size, `a.copy(b)` takes the element loop, returns, leaves `b` as it was
and leaves in `a[i]` the value of `b[i]` reduced to the signed 32-bit range;
when every `b[i]` lies in that range, `a[i]` has the value of `b[i]` and
`a == b` is then true, and `a == b` is true in no other case. -/
theorem C17_copy_int64_reduces_to_32_bits (n_ : Nat) (a : Array int n_)
    (b : Array int64_t n_) :
    EnableCMem int_info int64_info = false ∧
    ∃ r, a.copy int_info int64_info int64_t.toInt b = some (r, b) ∧
      a.copy_iterate int64_t.toInt b = some r ∧
      (∀ i, (r._data i).val
        = ((b._data i).val + 2147483648) % 4294967296 - 2147483648) ∧
      ((∀ i, -2147483648 ≤ (b._data i).val ∧ (b._data i).val < 2147483648) →
        (∀ i, (r._data i).val = (b._data i).val) ∧
        r.operator_eq int64_t.eq_int b = some true) ∧
      (r.operator_eq int64_t.eq_int b = some true ↔
        ∀ i, -2147483648 ≤ (b._data i).val ∧ (b._data i).val < 2147483648) := by
  have hsel : ¬ (EnableCMem int_info int64_info = true) := by decide
  have hiff : (⟨fun j => (b._data j).toInt⟩ : Array int n_).operator_eq int64_t.eq_int b
      = some true ↔
      ∀ i, -2147483648 ≤ (b._data i).val ∧ (b._data i).val < 2147483648 := by
    rw [operator_eq_eq]
    simp only [Option.some.injEq, decide_eq_true_eq]
    constructor
    · intro h i
      have hi := h i
      unfold int64_t.eq_int at hi
      rw [decide_eq_true_eq] at hi
      exact (int64_roundtrip_iff (b._data i)).mp hi
    · intro h i
      unfold int64_t.eq_int
      rw [decide_eq_true_eq]
      exact (int64_roundtrip_iff (b._data i)).mpr (h i)
  refine ⟨rfl, ⟨fun j => (b._data j).toInt⟩, ?_, copy_iterate_eq _ a b, fun _ => rfl, ?_, hiff⟩
  · rw [copy_eq, if_neg hsel]
  · intro h
    refine ⟨?_, hiff.mpr h⟩
    intro i
    have h1 := (h i).1
    have h2 := (h i).2
    simp only [int64_t.toInt, int.ofInt, wrap32]
    omega

/-- The copy of the `int64_t` array `{5, -6}`, whose values lie in the signed
32-bit range, into an `int` array: the values are kept and `a == b` is true. -/
theorem C17_copy_int64_witness :
    ∃ r, (ints [0, 0]).copy int_info int64_info int64_t.toInt
        (Array.ofValues [(⟨5, by decide, by decide⟩ : int64_t), ⟨-6, by decide, by decide⟩] rfl)
          = some (r, Array.ofValues [(⟨5, by decide, by decide⟩ : int64_t),
              ⟨-6, by decide, by decide⟩] rfl) ∧
      (∀ i, (r._data i).val = ((Array.ofValues [(⟨5, by decide, by decide⟩ : int64_t),
          ⟨-6, by decide, by decide⟩] rfl : Array int64_t 2)._data i).val) ∧
      r.operator_eq int64_t.eq_int (Array.ofValues [(⟨5, by decide, by decide⟩ : int64_t),
          ⟨-6, by decide, by decide⟩] rfl) = some true := by
  obtain ⟨r, h1, _, _, h4, _⟩ := (C17_copy_int64_reduces_to_32_bits 2 (ints [0, 0])
    (Array.ofValues [(⟨5, by decide, by decide⟩ : int64_t), ⟨-6, by decide, by decide⟩] rfl)).2
  have h5 := h4 (by
    intro i
    fin_cases i <;> decide)
  exact ⟨r, h1, h5.1, h5.2⟩

/-! ## Division -/

/-- Away from a zero divisor and from the minimum value over -1, the
truncated quotient of two `int` values is in the `int` range. -/
theorem tdiv_in_range (x y : Int) (hx1 : -2147483648 ≤ x) (hx2 : x < 2147483648)
    (hy : y ≠ 0) (hxy : ¬ (x = -2147483648 ∧ y = -1)) :
    -2147483648 ≤ Int.tdiv x y ∧ Int.tdiv x y < 2147483648 := by
  have hq : (Int.tdiv x y).natAbs = x.natAbs / y.natAbs := Int.natAbs_tdiv x y
  by_cases h2 : 2 ≤ y.natAbs
  · have h3 : x.natAbs / y.natAbs ≤ x.natAbs / 2 := Nat.div_le_div_left h2 (by decide)
    omega
  · by_cases h1 : y = 1
    · subst h1
      rw [Int.tdiv_one]
      exact ⟨hx1, hx2⟩
    · have hm : y = -1 := by omega
      subst hm
      rw [Int.tdiv_neg, Int.tdiv_one]
      omega

theorem int.div_eq (x y : int) (hy : y.val ≠ 0)
    (hxy : ¬ (x.val = -2147483648 ∧ y.val = -1)) :
    ∃ q, int.div x y = some q ∧ q.val = Int.tdiv x.val y.val := by
  have hr := tdiv_in_range x.val y.val x.lo x.hi hy hxy
  refine ⟨int.ofInt (Int.tdiv x.val y.val), ?_, ?_⟩
  · unfold int.div
    rw [if_neg hy, if_neg hxy]
  · have h1 := hr.1
    have h2 := hr.2
    simp only [int.ofInt, wrap32]
    omega

theorem operator_div_eq (div : Tp → Vp → Option Rp) (a : Array Tp n_) (b : Array Vp n_)
    (result : Array Rp n_) (q : Fin n_ → Rp)
    (hq : ∀ i, div (a._data i) (b._data i) = some (q i)) :
    a.operator_div div b result = some (⟨q⟩, a, b) := by
  unfold Array.operator_div
  rw [operator_call_pure _ (a, b) q]
  intro i elem
  simp only [Array.operator_index_fin, hq i]

theorem operator_div_scalar_eq (div : Tp → Vp → Option Rp) (a : Array Tp n_) (v : Vp)
    (result : Array Rp n_) (q : Fin n_ → Rp)
    (hq : ∀ i, div (a._data i) v = some (q i)) :
    a.operator_div_scalar div v result = some (⟨q⟩, a, v) := by
  unfold Array.operator_div_scalar
  rw [operator_call_pure _ (a, v) q]
  intro i elem
  simp only [Array.operator_index_fin, hq i]

/-- C18, as stated, fails in its scalar form: -1 is a non-zero scalar, and
`{minimum value} / -1` reaches the undefined branch of the element division. -/
theorem C18_counterexample_scalar_minimum_by_minus_one :
    (int.ofInt (-1)).val ≠ 0 ∧
    (ints [-2147483648]).operator_div_scalar int.div (int.ofInt (-1)) (ints [0]) = none :=
  ⟨by decide, rfl⟩

/-- C18, amended: for `int` arrays `a`, `b` of one size in which every `b[i]`
is non-zero and no pair `(a[i], b[i])` is (minimum value, -1), `a / b` returns
an array `r` with `r[i]` the quotient of `a[i]` by `b[i]` truncated toward
zero, `a` and `b` as they were; the scalar `a / v` does the same for a `v`
that is non-zero and, when `v` is -1, an `a` without the minimum value. -/
theorem C18_division_elementwise_truncating (n_ : Nat) (a b result : Array int n_) (v : int)
    (hb : ∀ i, (b._data i).val ≠ 0 ∧
      ¬ ((a._data i).val = -2147483648 ∧ (b._data i).val = -1))
    (hv : v.val ≠ 0 ∧ ∀ i, ¬ ((a._data i).val = -2147483648 ∧ v.val = -1)) :
    (∃ r, a.operator_div int.div b result = some (r, a, b) ∧
      ∀ i, (r._data i).val = Int.tdiv (a._data i).val (b._data i).val) ∧
    (∃ r, a.operator_div_scalar int.div v result = some (r, a, v) ∧
      ∀ i, (r._data i).val = Int.tdiv (a._data i).val v.val) := by
  constructor
  · have hq : ∀ i, ∃ q, int.div (a._data i) (b._data i) = some q ∧
        q.val = Int.tdiv (a._data i).val (b._data i).val :=
      fun i => int.div_eq _ _ (hb i).1 (hb i).2
    exact ⟨⟨fun i => (hq i).choose⟩,
      operator_div_eq int.div a b result _ (fun i => (hq i).choose_spec.1),
      fun i => (hq i).choose_spec.2⟩
  · have hq : ∀ i, ∃ q, int.div (a._data i) v = some q ∧
        q.val = Int.tdiv (a._data i).val v.val :=
      fun i => int.div_eq _ _ hv.1 (hv.2 i)
    exact ⟨⟨fun i => (hq i).choose⟩,
      operator_div_scalar_eq int.div a v result _ (fun i => (hq i).choose_spec.1),
      fun i => (hq i).choose_spec.2⟩

/-- The quotients `{7, -7, -2147483648} / {2, 2, 1}` and `{7, -7, -2147483648} / 2`. -/
theorem C18_division_witness :
    (∃ r, (ints [7, -7, -2147483648]).operator_div int.div (ints [2, 2, 1]) (ints [0, 0, 0])
        = some (r, ints [7, -7, -2147483648], ints [2, 2, 1]) ∧
      ∀ i, (r._data i).val
        = Int.tdiv ((ints [7, -7, -2147483648])._data i).val ((ints [2, 2, 1])._data i).val) ∧
    (∃ r, (ints [7, -7, -2147483648]).operator_div_scalar int.div (int.ofInt 2) (ints [0, 0, 0])
        = some (r, ints [7, -7, -2147483648], int.ofInt 2) ∧
      ∀ i, (r._data i).val
        = Int.tdiv ((ints [7, -7, -2147483648])._data i).val (int.ofInt 2).val) :=
  C18_division_elementwise_truncating 3 (ints [7, -7, -2147483648]) (ints [2, 2, 1])
    (ints [0, 0, 0]) (int.ofInt 2)
    (by
      intro i
      fin_cases i <;> decide)
    ⟨by decide, by
      intro i
      fin_cases i <;> decide⟩

/-! ## The matrix product and the loop of `main` -/

/-- C19: the product does not reduce the sums modulo `2^64`.  The sum is
accumulated in the `int` that the literal `0` passed to `inner_product`
makes the accumulator, and that `int` is then converted to `u64`.  For the
1-by-1 matrices `(4294967296)` and `(1)` the product is `(0)`, for
`(2147483648)` and `(1)` it is `(18446744071562067968)`; the sums modulo
`2^64` are 4294967296 and 2147483648.  For the matrix of `main` the two
agree. -/
theorem C19_product_accumulates_in_int :
    Matrix.operator_mul ⟨[4294967296], 1, 1⟩ ⟨[1], 1, 1⟩ = some ⟨[0], 1, 1⟩ ∧
    productEntry 1 ⟨[4294967296], 1, 1⟩ ⟨[1], 1, 1⟩ 0 0 = 4294967296 ∧
    Matrix.operator_mul ⟨[2147483648], 1, 1⟩ ⟨[1], 1, 1⟩
      = some ⟨[18446744071562067968], 1, 1⟩ ∧
    productEntry 1 ⟨[2147483648], 1, 1⟩ ⟨[1], 1, 1⟩ 0 0 = 2147483648 ∧
    Matrix.operator_mul main_m main_m = some ⟨[2, 1, 1, 1], 2, 2⟩ ∧
    (List.range 2).map (fun i => (List.range 2).map (fun j => productEntry 2 main_m main_m i j))
      = [[2, 1], [1, 1]] := by
  refine ⟨?_, ?_, ?_, ?_, ?_, ?_⟩ <;> decide

theorem square_index_lt (n r c : Nat) (hr : r < n) (hc : c < n) : n * r + c < n * n := by
  have h1 : n * (r + 1) ≤ n * n := Nat.mul_le_mul_left n hr
  rw [Nat.mul_succ] at h1
  omega

theorem get_row_loop_some (self : Matrix) (r : Nat) :
    ∀ (ret : List Nat) (i : Nat), self.rows * r + i + ret.length ≤ self.data.length →
      ∃ l, self.get_row_loop r ret i = some l ∧ l.length = ret.length := by
  intro ret
  induction ret with
  | nil => intro i _; exact ⟨[], rfl, rfl⟩
  | cons x ret ih =>
    intro i h
    simp only [List.length_cons] at h
    obtain ⟨l, hl, hlen⟩ := ih (i + 1) (by omega)
    have hget : self.data[self.rows * r + i]? = some (self.data.get ⟨self.rows * r + i, by omega⟩) :=
      List.getElem?_eq_getElem (by omega)
    refine ⟨self.data.get ⟨self.rows * r + i, by omega⟩ :: l, ?_, by simp [hlen]⟩
    unfold Matrix.get_row_loop
    rw [hget]
    simp only [hl]

theorem get_col_loop_some (self : Matrix) (c : Nat) :
    ∀ (ret : List Nat) (i : Nat),
      (∀ k, k < ret.length → self.cols * (i + k) + c < self.data.length) →
      ∃ l, self.get_col_loop c ret i = some l ∧ l.length = ret.length := by
  intro ret
  induction ret with
  | nil => intro i _; exact ⟨[], rfl, rfl⟩
  | cons x ret ih =>
    intro i h
    have h0 := h 0 (by simp)
    simp only [Nat.add_zero] at h0
    obtain ⟨l, hl, hlen⟩ := ih (i + 1) (by
      intro k hk
      have := h (k + 1) (by simpa using hk)
      have e : i + (k + 1) = i + 1 + k := by omega
      rw [e] at this
      exact this)
    have hget : self.data[self.cols * i + c]? = some (self.data.get ⟨self.cols * i + c, h0⟩) :=
      List.getElem?_eq_getElem h0
    refine ⟨self.data.get ⟨self.cols * i + c, h0⟩ :: l, ?_, by simp [hlen]⟩
    unfold Matrix.get_col_loop
    rw [hget]
    simp only [hl]

theorem inner_product_some :
    ∀ (range1 range2 : List Nat) (init : int), range1.length ≤ range2.length →
      ∃ s, inner_product range1 range2 init = some s := by
  intro range1
  induction range1 with
  | nil => intro _ init _; exact ⟨init, by unfold inner_product; rfl⟩
  | cons x range1 ih =>
    intro range2 init h
    cases range2 with
    | nil => simp at h
    | cons y range2 =>
      unfold inner_product
      exact ih range2 _ (by simpa using h)

theorem get_row_square (m : Matrix) (n r : Nat) (hm : m.isSquare n) (hr : r < n) :
    ∃ l, m.get_row r = some l ∧ l.length = n := by
  obtain ⟨hc, hrw, hd⟩ := hm
  have h1 : n * (r + 1) ≤ n * n := Nat.mul_le_mul_left n hr
  rw [Nat.mul_succ] at h1
  obtain ⟨l, hl, hlen⟩ := get_row_loop_some m r (List.replicate m.cols 0) 0 (by
    rw [List.length_replicate, hc, hrw, hd]
    omega)
  exact ⟨l, hl, by rw [hlen, List.length_replicate, hc]⟩

theorem get_col_square (m : Matrix) (n c : Nat) (hm : m.isSquare n) (hc : c < n) :
    ∃ l, m.get_col c = some l ∧ l.length = n := by
  obtain ⟨hcols, hrw, hd⟩ := hm
  obtain ⟨l, hl, hlen⟩ := get_col_loop_some m c (List.replicate m.rows 0) 0 (by
    intro k hk
    rw [List.length_replicate, hrw] at hk
    rw [hcols, hd, Nat.zero_add]
    exact square_index_lt n k c hk hc)
  exact ⟨l, hl, by rw [hlen, List.length_replicate, hrw]⟩

theorem store_at_square (out : Matrix) (n i j v : Nat) (ho : out.isSquare n) (hi : i < n)
    (hj : j < n) : ∃ out2, out.store_at i j v = some out2 ∧ out2.isSquare n := by
  obtain ⟨hc, hr, hd⟩ := ho
  have hidx : i * out.cols + j < out.data.length := by
    rw [hc, hd, Nat.mul_comm i n]
    exact square_index_lt n i j hi hj
  refine ⟨⟨out.data.set (i * out.cols + j) v, out.cols, out.rows⟩, ?_, hc, hr, ?_⟩
  · unfold Matrix.store_at
    rw [if_pos hidx]
  · simp [hd]

theorem operator_mul_cols_square (sel_row : List Nat) (rhs : Matrix) (n i : Nat)
    (hrow : sel_row.length = n) (hrhs : rhs.isSquare n) (hi : i < n) :
    ∀ (fuel j : Nat) (out : Matrix), j ≤ n → n - j < fuel → out.isSquare n →
      ∃ out2, Matrix.operator_mul_cols sel_row rhs i fuel j out = some out2 ∧
        out2.isSquare n := by
  intro fuel
  induction fuel with
  | zero => intro j _ _ h; omega
  | succ fuel ih =>
    intro j out hj hfuel ho
    unfold Matrix.operator_mul_cols
    by_cases hjn : j < rhs.rows
    · rw [if_pos hjn]
      have hjn2 : j < n := by rw [← hrhs.2.1]; exact hjn
      obtain ⟨sel_col, hcol, hclen⟩ := get_col_square rhs n j hrhs hjn2
      obtain ⟨s, hs⟩ := inner_product_some sel_row sel_col (int.ofInt 0) (by omega)
      obtain ⟨out2, hst, ho2⟩ :=
        store_at_square out n i j (s.val % 18446744073709551616).toNat ho hi hjn2
      simp only [hcol, hs, hst]
      exact ih (j + 1) out2 (by omega) (by omega) ho2
    · rw [if_neg hjn]
      exact ⟨out, rfl, ho⟩

theorem operator_mul_rows_square (self rhs : Matrix) (n : Nat) (hself : self.isSquare n)
    (hrhs : rhs.isSquare n) :
    ∀ (fuel i : Nat) (out : Matrix), i ≤ n → n - i < fuel → out.isSquare n →
      ∃ out2, Matrix.operator_mul_rows self rhs fuel i out = some out2 ∧ out2.isSquare n := by
  intro fuel
  induction fuel with
  | zero => intro i _ _ h; omega
  | succ fuel ih =>
    intro i out hi hfuel ho
    unfold Matrix.operator_mul_rows
    by_cases hin : i < self.cols
    · rw [if_pos hin]
      have hin2 : i < n := by rw [← hself.1]; exact hin
      obtain ⟨sel_row, hrow, hrlen⟩ := get_row_square self n i hself hin2
      obtain ⟨out2, hcols, ho2⟩ := operator_mul_cols_square sel_row rhs n i hrlen hrhs hin2
        (rhs.rows + 1) 0 out (by omega) (by rw [hrhs.2.1]; omega) ho
      simp only [hrow, hcols]
      exact ih (i + 1) out2 (by omega) (by omega) ho2
    · rw [if_neg hin]
      exact ⟨out, rfl, ho⟩

/-- The product of two `n`-by-`n` matrices is defined and is `n`-by-`n`. -/
theorem operator_mul_square (a b : Matrix) (n : Nat) (ha : a.isSquare n) (hb : b.isSquare n) :
    ∃ out, a.operator_mul b = some out ∧ out.isSquare n := by
  unfold Matrix.operator_mul
  apply operator_mul_rows_square a b n ha hb (a.cols + 1) 0 _ (by omega) (by rw [ha.1]; omega)
  refine ⟨ha.1, hb.2.1, ?_⟩
  simp [Matrix.new, ha.1, hb.2.1]

/-- From an input of at most 3 the loop of `main` is still running after any
number of loop tests. -/
theorem main_loop_running (k : Nat) :
    ∀ (fuel n : Nat) (m : Matrix), n ≤ 3 → m.isSquare k →
      ∃ n2 m2, main_loop fuel n m = LoopRun.running n2 m2 := by
  intro fuel
  induction fuel with
  | zero => intro n m _ _; exact ⟨n, m, rfl⟩
  | succ fuel ih =>
    intro n m hn hm
    unfold main_loop
    have h2 : n / 2 ≤ 1 := by omega
    obtain ⟨m2, hmul, hm2⟩ := operator_mul_square m m k hm hm
    rw [if_pos h2]
    simp only [hmul]
    exact ih (n / 2) m2 (by omega) hm2

/-- C20: the loop of `main` does not terminate for the inputs 0, 1, 2, 3.
The halved `n` is then at most 1 at every loop test, so whatever the number
of loop tests the run is still inside the loop, squaring `m`; an input of 4
or more leaves the loop at the first test without squaring. -/
theorem C20_loop_runs_forever_below_four :
    (∀ (fuel n : Nat), n ≤ 3 → ∃ n2 m2, main_loop fuel n main_m = LoopRun.running n2 m2) ∧
    (∀ (fuel n : Nat), n ≤ 3 → ∀ n2 m2, main_loop fuel n main_m ≠ LoopRun.exited n2 m2) ∧
    (∀ (fuel n : Nat) (m : Matrix), 4 ≤ n →
      main_loop (fuel + 1) n m = LoopRun.exited (n / 2) m) ∧
    main_loop 3 0 main_m = LoopRun.running 0 ⟨[34, 21, 21, 13], 2, 2⟩ := by
  have hsq : main_m.isSquare 2 := ⟨rfl, rfl, rfl⟩
  refine ⟨fun fuel n hn => main_loop_running 2 fuel n main_m hn hsq, ?_, ?_, by decide⟩
  · intro fuel n hn n2 m2 h
    obtain ⟨n3, m3, h3⟩ := main_loop_running 2 fuel n main_m hn hsq
    rw [h3] at h
    exact LoopRun.noConfusion h
  · intro fuel n m hn
    unfold main_loop
    rw [if_neg (by omega)]

end ArrayCpp
